import Mathlib

/-!
Verification of the tag-group backup/restore module of leanix-admin
(src/leanix_admin/tag_group.py).

The module reconciles "tag groups" and their "tags" between a GraphQL
service and an on-disk snapshot.  Python dictionaries are embedded as
structures whose optional entries are values of type DictVal: a key can be
missing from the dictionary (absent), present with value None (null), or
present with a proper value (val).  Remote calls are recorded in a trace
state; an exception aborts the run but keeps the calls already issued,
mirroring the sequential, non-transactional Python control flow.
-/

/-- Python dictionary entry: missing key, present None, or present value. -/
inductive DictVal (α : Type) where
  | absent : DictVal α
  | null : DictVal α
  | val : α → DictVal α
deriving DecidableEq, Repr

/-- Dictionary access tg[k]: raises KeyError when the key is missing,
otherwise yields the (possibly None) value. -/
def DictVal.lookup {α : Type} : DictVal α → Except Unit (Option α)
  | .absent => .error ()
  | .null => .ok none
  | .val a => .ok (some a)

/-- Dictionary assignment of a Python value that may be None. -/
def DictVal.ofOpt {α : Type} : Option α → DictVal α
  | none => .null
  | some a => .val a

/-- The proper value carried by a field, when there is one. -/
def DictVal.toOpt {α : Type} : DictVal α → Option α
  | .val a => some a
  | _ => none

/-- Python del d[k]: raises KeyError when the key is missing, otherwise
the key is gone afterwards. -/
def DictVal.del {α : Type} : DictVal α → Except Unit (DictVal α)
  | .absent => .error ()
  | _ => .ok .absent

/-- Python truthiness of a str-or-None value: None and the empty string
are falsy. -/
def truthy : Option String → Bool
  | some s => !s.isEmpty
  | none => false

/-- Python truthiness of a list-valued field (absent collapses to None
first, as in d.get(k, None)): None and the empty list are falsy. -/
def DictVal.truthyList {α : Type} : DictVal (List α) → Bool
  | .val l => !l.isEmpty
  | _ => false

/-- A tag record (Python dict).  name is the matching key and is taken to
be always present; the remaining entries may be absent/None. -/
structure Tag where
  id : DictVal String
  name : String
  description : DictVal String
  color : DictVal String
  status : DictVal String
  tagGroupId : DictVal String
deriving DecidableEq, Repr

/-- A tag-group record (Python dict) with its embedded tag list. -/
structure TagGroup where
  id : DictVal String
  name : String
  mode : DictVal String
  shortName : DictVal String
  description : DictVal String
  restrictToFactSheetTypes : DictVal (List String)
  tags : List Tag
deriving DecidableEq, Repr

/-- The tag-group node embedded in a fetched tag edge. -/
structure GroupNode where
  id : DictVal String
  name : String
  mode : DictVal String
  shortName : DictVal String
  description : DictVal String
  restrictToFactSheetTypes : DictVal (List String)
deriving DecidableEq, Repr

/-- A fetched tag node: the tag fields plus its possibly-null tagGroup. -/
structure TagNode where
  id : DictVal String
  name : String
  description : DictVal String
  color : DictVal String
  status : DictVal String
  tagGroup : Option GroupNode
deriving DecidableEq, Repr

/-- OTHER_TAGS = forbidden-id sentinel dict with exactly the keys id
(None) and name; all other keys are missing. -/
def OTHER_TAGS : GroupNode :=
  { id := DictVal.null
    name := "__OTHER_TAGS__"
    mode := DictVal.absent
    shortName := DictVal.absent
    description := DictVal.absent
    restrictToFactSheetTypes := DictVal.absent }

/-- is_real_tag_group: the group name differs from the sentinel name. -/
def is_real_tag_group (tg : TagGroup) : Bool :=
  decide (tg.name ≠ OTHER_TAGS.name)

/-- find_by_name: first element of the haystack whose name equals the
needle's name; nameOf abstracts the dict lookup x[name]. -/
def find_by_name {α : Type} (nameOf : α → String) (needle : α) : List α → Option α
  | [] => none
  | c :: rest =>
    if nameOf needle = nameOf c then some c else find_by_name nameOf needle rest

/-- Python dict lookup d.get(k): first binding of the key, if any. -/
def dictGet {β : Type} (k : String) : List (String × β) → Option β
  | [] => none
  | (k1, v) :: rest => if k1 = k then some v else dictGet k rest

/-- Python dict update d[k] = v: overwrite in place, else append. -/
def dictInsert {β : Type} (k : String) (v : β) : List (String × β) → List (String × β)
  | [] => [(k, v)]
  | (k1, v1) :: rest =>
    if k1 = k then (k1, v) :: rest else (k1, v1) :: dictInsert k v rest

/-- Lexicographic code-point comparison of character lists: the string
order Python's sorted uses for the by_name key. -/
def charListLe : List Char → List Char → Bool
  | [], _ => true
  | _ :: _, [] => false
  | a :: as, b :: bs =>
    if a.toNat < b.toNat then true
    else if b.toNat < a.toNat then false
    else charListLe as bs

/-- Python string comparison a <= b. -/
def strLe (a b : String) : Bool := charListLe a.data b.data

theorem charListLe_total : ∀ a b : List Char,
    charListLe a b = true ∨ charListLe b a = true := by
  intro a
  induction a with
  | nil => intro b; exact Or.inl rfl
  | cons x xs ih =>
    intro b
    cases b with
    | nil => exact Or.inr rfl
    | cons y ys =>
      rcases Nat.lt_trichotomy x.toNat y.toNat with h | h | h
      · exact Or.inl (by simp [charListLe, h])
      · have h1 : ¬x.toNat < y.toNat := by omega
        have h2 : ¬y.toNat < x.toNat := by omega
        rcases ih ys with h3 | h3
        · exact Or.inl (by simp [charListLe, h1, h2, h3])
        · exact Or.inr (by simp [charListLe, h1, h2, h3])
      · exact Or.inr (by simp [charListLe, h])

theorem charListLe_trans : ∀ a b c : List Char,
    charListLe a b = true → charListLe b c = true → charListLe a c = true := by
  intro a
  induction a with
  | nil => intro b c _ _; rfl
  | cons x xs ih =>
    intro b c hab hbc
    cases b with
    | nil => simp [charListLe] at hab
    | cons y ys =>
      cases c with
      | nil => simp [charListLe] at hbc
      | cons z zs =>
        by_cases h1 : x.toNat < y.toNat
        · by_cases h2 : y.toNat < z.toNat
          · have h3 : x.toNat < z.toNat := by omega
            simp [charListLe, h3]
          · simp only [charListLe, if_neg h2] at hbc
            by_cases h4 : z.toNat < y.toNat
            · rw [if_pos h4] at hbc; cases hbc
            · have h3 : x.toNat < z.toNat := by omega
              simp [charListLe, h3]
        · by_cases h5 : y.toNat < x.toNat
          · simp [charListLe, h1, h5] at hab
          · by_cases h2 : y.toNat < z.toNat
            · have h3 : x.toNat < z.toNat := by omega
              simp [charListLe, h3]
            · simp only [charListLe, if_neg h2] at hbc
              by_cases h4 : z.toNat < y.toNat
              · rw [if_pos h4] at hbc; cases hbc
              · have h6 : ¬x.toNat < z.toNat := by omega
                have h7 : ¬z.toNat < x.toNat := by omega
                rw [if_neg h4] at hbc
                simp only [charListLe, if_neg h1, if_neg h5] at hab
                simp only [charListLe, if_neg h6, if_neg h7]
                exact ih ys zs hab hbc

/-- Comparison key used by both sort passes: by_name = lambda x, x[name],
here for tags. -/
def tagNameLe (a b : Tag) : Prop := strLe a.name b.name = true

instance : DecidableRel tagNameLe := fun a b =>
  inferInstanceAs (Decidable (strLe a.name b.name = true))

instance : IsTotal Tag tagNameLe := ⟨fun a b => charListLe_total a.name.data b.name.data⟩

instance : IsTrans Tag tagNameLe :=
  ⟨fun _ _ _ hab hbc => charListLe_trans _ _ _ hab hbc⟩

/-- Comparison key for the group sort pass. -/
def groupNameLe (a b : TagGroup) : Prop := strLe a.name b.name = true

instance : DecidableRel groupNameLe := fun a b =>
  inferInstanceAs (Decidable (strLe a.name b.name = true))

instance : IsTotal TagGroup groupNameLe :=
  ⟨fun a b => charListLe_total a.name.data b.name.data⟩

instance : IsTrans TagGroup groupNameLe :=
  ⟨fun _ _ _ hab hbc => charListLe_trans _ _ _ hab hbc⟩

/-- sorted(tags, key=by_name). -/
def sortTags (l : List Tag) : List Tag := List.insertionSort tagNameLe l

/-- sorted(groups, key=by_name). -/
def sortGroups (l : List TagGroup) : List TagGroup := List.insertionSort groupNameLe l

/-- The connection object under one query field of the response data:
a dict that may or may not carry an edges list. -/
structure TagsConn where
  edges : Option (List TagNode)
deriving DecidableEq, Repr

/-- The parsed JSON body of a GraphQL response. -/
structure ResponseBody where
  errors : DictVal (List String)
  data : DictVal (List (String × TagsConn))
deriving DecidableEq, Repr

/-- An HTTP response: status code plus parsed JSON body. -/
structure HttpResponse where
  status : Nat
  body : ResponseBody
deriving DecidableEq, Repr

/-- requests' raise_for_status: raises exactly on 4xx/5xx status codes. -/
def is_error_status (n : Nat) : Bool := decide (400 ≤ n) && decide (n < 600)

/-- _exec_graphql without the transport: checks the status, then the
errors field, then returns the data payload if it is truthy. -/
def _exec_graphql (r : HttpResponse) : Except Unit (List (String × TagsConn)) :=
  if is_error_status r.status then .error ()
  else if DictVal.truthyList r.body.errors then .error ()
  else
    match r.body.data with
    | DictVal.val l => if l.isEmpty then .error () else .ok l
    | _ => .error ()

/-- response.get(listTags, default).get(edges, default list). -/
def getEdges (data : List (String × TagsConn)) : List TagNode :=
  match dictGet "listTags" data with
  | some conn => conn.edges.getD []
  | none => []

/-- tag[tagGroup] or OTHER_TAGS.copy(). -/
def edgeGroup (tn : TagNode) : GroupNode := tn.tagGroup.getD OTHER_TAGS

/-- The tag record a fetched edge contributes to the result: the
tagGroup key is removed, and with erase_id the id key is removed too. -/
def processTag (erase : Bool) (tn : TagNode) : Tag :=
  { id := if erase then DictVal.absent else tn.id
    name := tn.name
    description := tn.description
    color := tn.color
    status := tn.status
    tagGroupId := DictVal.absent }

/-- One iteration of the edge loop of _fetch_tag_groups: unwraps the
node, substitutes the sentinel group for a null tagGroup, optionally
deletes the ids, appends the tag to its group's list and re-sorts it,
and stores the (updated) group record under its name. -/
def fetchStep (erase : Bool) (acc : List (String × TagGroup)) (tn : TagNode) :
    Except Unit (List (String × TagGroup)) :=
  let tg := edgeGroup tn
  let ids : Except Unit (DictVal String × DictVal String) :=
    if erase then
      match tn.id.del with
      | .error e => .error e
      | .ok ti =>
        match tg.id.del with
        | .error e => .error e
        | .ok gi => .ok (ti, gi)
    else .ok (tn.id, tg.id)
  match ids with
  | .error e => .error e
  | .ok (ti, gi) =>
    let tag : Tag :=
      { id := ti, name := tn.name, description := tn.description,
        color := tn.color, status := tn.status, tagGroupId := DictVal.absent }
    let known_tags : List Tag :=
      match dictGet tg.name acc with
      | some g => g.tags
      | none => []
    let tag_group : TagGroup :=
      { id := gi, name := tg.name, mode := tg.mode, shortName := tg.shortName,
        description := tg.description,
        restrictToFactSheetTypes := tg.restrictToFactSheetTypes,
        tags := sortTags (known_tags ++ [tag]) }
    .ok (dictInsert tg.name tag_group acc)

/-- The edge loop of _fetch_tag_groups over the tag_group_lookup dict. -/
def buildLookup (erase : Bool) : List TagNode → List (String × TagGroup) →
    Except Unit (List (String × TagGroup))
  | [], acc => .ok acc
  | e :: es, acc =>
    match fetchStep erase acc e with
    | .error err => .error err
    | .ok acc1 => buildLookup erase es acc1

/-- _fetch_tag_groups: execute the query, group the edges by group name,
and return the groups sorted by name. -/
def _fetch_tag_groups (erase : Bool) (r : HttpResponse) : Except Unit (List TagGroup) :=
  match _exec_graphql r with
  | .error e => .error e
  | .ok data =>
    match buildLookup erase (getEdges data) [] with
    | .error e => .error e
    | .ok lk => .ok (sortGroups (lk.map Prod.snd))

/-- Escaping of backslash and quote as json.dumps applies to the
characters of a string. -/
def json_escape_chars : List Char → List Char
  | [] => []
  | c :: cs =>
    if c = '\\' then '\\' :: '\\' :: json_escape_chars cs
    else if c = '\"' then '\\' :: '\"' :: json_escape_chars cs
    else c :: json_escape_chars cs

/-- json.dumps escaping of one string. -/
def json_escape (s : String) : String := String.mk (json_escape_chars s.data)

/-- JSON string literal. -/
def json_quote (s : String) : String := "\"" ++ json_escape s ++ "\""

/-- JSON array of strings. -/
def json_dumps_list (l : List String) : String :=
  "[" ++ String.intercalate ", " (l.map json_quote) ++ "]"

/-- json.dumps of a list-or-None value. -/
def json_dumps_opt : Option (List String) → String
  | none => "null"
  | some l => json_dumps_list l

/-- A JSON-patch instruction as sent in update mutations. -/
inductive PatchOp where
  | replace (path : String) (value : Option String)
  | remove (path : String)
deriving DecidableEq, Repr

/-- tag_group_patches: always replace /mode and the serialized
/restrictToFactSheetTypes; replace /shortName and /description when
truthy, remove them otherwise.  Each dict access may raise KeyError,
in the evaluation order of the Python source. -/
def tag_group_patches (tg : TagGroup) : Except Unit (List PatchOp) :=
  match tg.shortName.lookup with
  | .error e => .error e
  | .ok short_name =>
    match tg.description.lookup with
    | .error e => .error e
    | .ok description =>
      match tg.mode.lookup with
      | .error e => .error e
      | .ok mode =>
        match tg.restrictToFactSheetTypes.lookup with
        | .error e => .error e
        | .ok rfst =>
          .ok [PatchOp.replace "/mode" mode,
               PatchOp.replace "/restrictToFactSheetTypes" (some (json_dumps_opt rfst)),
               (if truthy short_name then PatchOp.replace "/shortName" short_name
                else PatchOp.remove "/shortName"),
               (if truthy description then PatchOp.replace "/description" description
                else PatchOp.remove "/description")]

/-- tag_patches: replace-or-remove /description, then always replace
/color and /status. -/
def tag_patches (t : Tag) : Except Unit (List PatchOp) :=
  match t.description.lookup with
  | .error e => .error e
  | .ok description =>
    match t.color.lookup with
    | .error e => .error e
    | .ok color =>
      match t.status.lookup with
      | .error e => .error e
      | .ok status =>
        .ok [(if truthy description then PatchOp.replace "/description" description
              else PatchOp.remove "/description"),
             PatchOp.replace "/color" color,
             PatchOp.replace "/status" status]

/-- A remote mutation, recorded with the variables the source sends. -/
inductive Call where
  | createTagGroup (tg : TagGroup)
  | updateTagGroup (id : Option String) (patches : List PatchOp)
  | deleteTagGroup (id : Option String)
  | createTag (t : Tag)
  | updateTag (id : Option String) (patches : List PatchOp)
  | deleteTag (id : Option String)
deriving DecidableEq, Repr

/-- The trace state of a restore run: calls issued so far, plus a
counter selecting the ids the remote returns for create mutations. -/
structure RState where
  calls : List Call
  fresh : Nat
deriving DecidableEq, Repr

/-- The empty trace at the start of a run. -/
def initState : RState := { calls := [], fresh := 0 }

/-- A step of the restore action: from a trace state, either a result
and the extended trace, or an exception with the trace kept as issued. -/
abbrev M (α : Type) : Type := RState → Except Unit α × RState

/-- Sequencing of two fallible steps: an exception aborts the
continuation but keeps the state reached so far. -/
def andThen {α β : Type} (x : Except Unit α × RState) (f : α → M β) :
    Except Unit β × RState :=
  match x with
  | (.error e, s) => (.error e, s)
  | (.ok a, s) => f a s

/-- _create_tag_group: issue the create mutation with the whole group
record as variables, then adopt the returned id into the record. -/
def _create_tag_group (gen : Nat → String) (tg : TagGroup) : M TagGroup := fun s =>
  let s1 : RState := { s with calls := s.calls ++ [Call.createTagGroup tg] }
  (.ok { tg with id := DictVal.val (gen s1.fresh) }, { s1 with fresh := s1.fresh + 1 })

/-- _update_tag_group: look up the id, build the patch list, and issue
the update mutation. -/
def _update_tag_group (tg : TagGroup) : M Unit := fun s =>
  andThen (tg.id.lookup, s) fun i s1 =>
    andThen (tag_group_patches tg, s1) fun ps s2 =>
      (.ok (), { s2 with calls := s2.calls ++ [Call.updateTagGroup i ps] })

/-- _delete_tag_group: look up the id and issue the delete mutation. -/
def _delete_tag_group (tg : TagGroup) : M Unit := fun s =>
  andThen (tg.id.lookup, s) fun i s1 =>
    (.ok (), { s1 with calls := s1.calls ++ [Call.deleteTagGroup i] })

/-- _create_tag: issue the create mutation with the whole tag record as
variables, then adopt the returned id. -/
def _create_tag (gen : Nat → String) (t : Tag) : M Tag := fun s =>
  let s1 : RState := { s with calls := s.calls ++ [Call.createTag t] }
  (.ok { t with id := DictVal.val (gen s1.fresh) }, { s1 with fresh := s1.fresh + 1 })

/-- _update_tag: look up the id, build the patch list, and issue the
update mutation. -/
def _update_tag (t : Tag) : M Unit := fun s =>
  andThen (t.id.lookup, s) fun i s1 =>
    andThen (tag_patches t, s1) fun ps s2 =>
      (.ok (), { s2 with calls := s2.calls ++ [Call.updateTag i ps] })

/-- _delete_tag: look up the id and issue the delete mutation. -/
def _delete_tag (t : Tag) : M Unit := fun s =>
  andThen (t.id.lookup, s) fun i s1 =>
    (.ok (), { s1 with calls := s1.calls ++ [Call.deleteTag i] })

/-- First loop of _restore_tags: for each desired tag, adopt the id of
the matching current tag and update it, or set the owning group id and
create it. -/
def restore_desired_tags (gen : Nat → String) (gid : Option String) (cs : List Tag) :
    List Tag → M (List Tag)
  | [] => fun s => (.ok [], s)
  | d :: ds => fun s =>
    andThen
      (match find_by_name Tag.name d cs with
       | some c =>
         andThen (c.id.lookup, s) fun ci s1 =>
           let d1 : Tag := { d with id := DictVal.ofOpt ci }
           andThen (_update_tag d1 s1) fun _ s2 => (.ok d1, s2)
       | none =>
         _create_tag gen { d with tagGroupId := DictVal.ofOpt gid } s)
      fun d1 s1 =>
        andThen (restore_desired_tags gen gid cs ds s1) fun ds1 s2 =>
          (.ok (d1 :: ds1), s2)

/-- Second loop of _restore_tags: delete every current tag with no
desired counterpart. -/
def delete_unmatched_tags (ds : List Tag) : List Tag → M Unit
  | [] => fun s => (.ok (), s)
  | c :: cs => fun s =>
    andThen
      (if (find_by_name Tag.name c ds).isSome then (.ok (), s) else _delete_tag c s)
      fun _ s1 => delete_unmatched_tags ds cs s1

/-- _restore_tags: reconcile the desired tags against the current tags
of one group, under the resolved group id. -/
def _restore_tags (gen : Nat → String) (gid : Option String) (ds cs : List Tag) :
    M (List Tag) := fun s =>
  andThen (restore_desired_tags gen gid cs ds s) fun ds1 s1 =>
    andThen (delete_unmatched_tags ds1 cs s1) fun _ s2 => (.ok ds1, s2)

/-- Body of the first loop of do_perform for one desired group: match by
name, adopt or create or null the id, update real matched groups, and
reconcile the tags. -/
def process_desired_group (gen : Nat → String) (current : List TagGroup)
    (d : TagGroup) : M TagGroup := fun s =>
  match find_by_name TagGroup.name d current with
  | some c =>
    andThen (c.id.lookup, s) fun ci s1 =>
      let d1 : TagGroup := { d with id := DictVal.ofOpt ci }
      andThen (if is_real_tag_group d1 then _update_tag_group d1 s1 else (.ok (), s1))
        fun _ s2 =>
        andThen (d1.id.lookup, s2) fun gid s3 =>
          andThen (_restore_tags gen gid d1.tags c.tags s3) fun ts s4 =>
            (.ok { d1 with tags := ts }, s4)
  | none =>
    andThen
      (if is_real_tag_group d then _create_tag_group gen d s
       else (.ok { d with id := DictVal.null }, s))
      fun d1 s1 =>
      andThen (d1.id.lookup, s1) fun gid s2 =>
        andThen (_restore_tags gen gid d1.tags [] s2) fun ts s3 =>
          (.ok { d1 with tags := ts }, s3)

/-- First loop of do_perform over the desired groups. -/
def process_desired_groups (gen : Nat → String) (current : List TagGroup) :
    List TagGroup → M (List TagGroup)
  | [] => fun s => (.ok [], s)
  | d :: ds => fun s =>
    andThen (process_desired_group gen current d s) fun d1 s1 =>
      andThen (process_desired_groups gen current ds s1) fun ds1 s2 =>
        (.ok (d1 :: ds1), s2)

/-- Inner loop of the delete phase: delete each tag of one group. -/
def delete_tags_list : List Tag → M Unit
  | [] => fun s => (.ok (), s)
  | t :: ts => fun s =>
    andThen (_delete_tag t s) fun _ s1 => delete_tags_list ts s1

/-- Second loop of do_perform: for every current group with no desired
counterpart, delete its tags and then, if it is real, the group. -/
def delete_unmatched_groups (ds : List TagGroup) : List TagGroup → M Unit
  | [] => fun s => (.ok (), s)
  | c :: cs => fun s =>
    andThen
      (if (find_by_name TagGroup.name c ds).isSome then (.ok (), s)
       else
         andThen (delete_tags_list c.tags s) fun _ s1 =>
           if is_real_tag_group c then _delete_tag_group c s1 else (.ok (), s1))
      fun _ s1 => delete_unmatched_groups ds cs s1

/-- do_perform of the restore action: reconcile desired against current.
The returned list is the desired list with the adopted ids, reflecting
the in-place mutation of the Python dicts. -/
def do_perform (gen : Nat → String) (desired current : List TagGroup) :
    M (List TagGroup) := fun s =>
  andThen (process_desired_groups gen current desired s) fun ds1 s1 =>
    andThen (delete_unmatched_groups ds1 current s1) fun _ s2 => (.ok ds1, s2)

/-! ### Call classifiers and expected-trace helpers -/

/-- Recognizer for create-group calls. -/
def isCreateGroup : Call → Bool
  | Call.createTagGroup _ => true
  | _ => false

/-- Recognizer for update-group calls. -/
def isUpdateGroup : Call → Bool
  | Call.updateTagGroup _ _ => true
  | _ => false

/-- Recognizer for delete-group calls. -/
def isDeleteGroup : Call → Bool
  | Call.deleteTagGroup _ => true
  | _ => false

/-- Recognizer for create-tag calls. -/
def isCreateTag : Call → Bool
  | Call.createTag _ => true
  | _ => false

/-- Recognizer for update-tag calls. -/
def isUpdateTag : Call → Bool
  | Call.updateTag _ _ => true
  | _ => false

/-- Recognizer for delete-tag calls. -/
def isDeleteTag : Call → Bool
  | Call.deleteTag _ => true
  | _ => false

/-- The calls the delete phase of do_perform issues: for every current
group whose name has no desired counterpart, one delete per tag in list
order, then the group delete when the group is real. -/
def deletePhase (dnames : List String) (current : List TagGroup) : List Call :=
  current.flatMap fun c =>
    if c.name ∈ dnames then []
    else
      (c.tags.map fun t => Call.deleteTag t.id.toOpt) ++
        (if is_real_tag_group c then [Call.deleteTagGroup c.id.toOpt] else [])

/-- Desired tags after reconciling against an empty current list: every
tag gets the owning group id and the id returned by its create call. -/
def createAdopt (gen : Nat → String) (gid : Option String) : Nat → List Tag → List Tag
  | _, [] => []
  | n, d :: ds =>
    { d with tagGroupId := DictVal.ofOpt gid, id := DictVal.val (gen n) } ::
      createAdopt gen gid (n + 1) ds

/-- Calls a run of the first phase of do_perform may add: anything but a
group delete, and group creates only for real groups. -/
def phase1_ok (c : Call) : Bool :=
  match c with
  | Call.deleteTagGroup _ => false
  | Call.createTagGroup g => is_real_tag_group g
  | _ => true

/-! ### Basic lemmas about the monadic plumbing -/

theorem andThen_ok {α β : Type} (a : α) (s : RState) (f : α → M β) :
    andThen (Except.ok a, s) f = f a s := rfl

theorem andThen_error {α β : Type} (e : Unit) (s : RState) (f : α → M β) :
    andThen (Except.error e, s) f = (Except.error e, s) := rfl

theorem andThen_snd_calls {α β : Type} (x : Except Unit α × RState) (f : α → M β)
    (h : ∀ a s1, ∃ t, ((f a s1).2).calls = s1.calls ++ t) :
    ∃ t, ((andThen x f).2).calls = x.2.calls ++ t := by
  obtain ⟨r, s⟩ := x
  cases r with
  | error e => exact ⟨[], by simp [andThen_error]⟩
  | ok a => simpa [andThen_ok] using h a s

/-! ### DictVal lookup lemmas -/

theorem DictVal.lookup_eq_ok {α : Type} {f : DictVal α} {o : Option α}
    (h : f.lookup = Except.ok o) : o = f.toOpt ∧ f ≠ DictVal.absent := by
  cases f <;> simp [DictVal.lookup, DictVal.toOpt] at h ⊢ <;> simp [h.symm]

theorem DictVal.lookup_absent {α : Type} :
    (DictVal.absent : DictVal α).lookup = Except.error () := rfl

theorem DictVal.lookup_ne_absent {α : Type} {f : DictVal α} (h : f ≠ DictVal.absent) :
    f.lookup = Except.ok f.toOpt := by
  cases f <;> simp_all [DictVal.lookup, DictVal.toOpt]

theorem DictVal.lookup_ofOpt {α : Type} (o : Option α) :
    (DictVal.ofOpt o).lookup = Except.ok o := by
  cases o <;> rfl

/-! ### find_by_name lemmas -/

theorem find_by_name_mem {α : Type} {nameOf : α → String} {n x : α} :
    ∀ {hay : List α}, find_by_name nameOf n hay = some x → x ∈ hay := by
  intro hay
  induction hay with
  | nil => intro h; simp [find_by_name] at h
  | cons c rest ih =>
    intro h
    by_cases hc : nameOf n = nameOf c
    · simp [find_by_name, hc] at h
      simp [h]
    · simp [find_by_name, hc] at h
      exact List.mem_cons_of_mem _ (ih h)

theorem find_by_name_eq_none {α : Type} {nameOf : α → String} {n : α} :
    ∀ {hay : List α}, find_by_name nameOf n hay = none ↔ ∀ y ∈ hay, nameOf y ≠ nameOf n := by
  intro hay
  induction hay with
  | nil => simp [find_by_name]
  | cons c rest ih =>
    by_cases hc : nameOf n = nameOf c
    · simp [find_by_name, hc]
    · simp [find_by_name, hc, ih]
      intro
      exact fun h => absurd h.symm hc

theorem find_by_name_isSome_iff {α : Type} {nameOf : α → String} {n : α} {hay : List α} :
    (find_by_name nameOf n hay).isSome = true ↔ ∃ y ∈ hay, nameOf y = nameOf n := by
  rw [Option.isSome_iff_ne_none]
  constructor
  · intro h
    by_contra hno
    push_neg at hno
    exact h (find_by_name_eq_none.mpr hno)
  · intro ⟨y, hy, hname⟩ h
    exact (find_by_name_eq_none.mp h) y hy hname

theorem find_by_name_earliest {α : Type} {nameOf : α → String} {n x : α} :
    ∀ {hay : List α}, find_by_name nameOf n hay = some x →
      ∃ pre post, hay = pre ++ x :: post ∧ nameOf x = nameOf n ∧
        ∀ y ∈ pre, nameOf y ≠ nameOf n := by
  intro hay
  induction hay with
  | nil => intro h; simp [find_by_name] at h
  | cons c rest ih =>
    intro h
    by_cases hc : nameOf n = nameOf c
    · simp [find_by_name, hc] at h
      subst h
      exact ⟨[], rest, by simp, hc.symm, by simp⟩
    · simp [find_by_name, hc] at h
      obtain ⟨pre, post, hsplit, hx, hpre⟩ := ih h
      refine ⟨c :: pre, post, by simp [hsplit], hx, ?_⟩
      intro y hy
      rcases List.mem_cons.mp hy with hyc | hyp
      · subst hyc; exact fun hh => hc hh.symm
      · exact hpre y hyp

theorem find_by_name_congr {α : Type} {nameOf : α → String} {n m : α}
    (h : nameOf n = nameOf m) :
    ∀ hay : List α, find_by_name nameOf n hay = find_by_name nameOf m hay := by
  intro hay
  induction hay with
  | nil => rfl
  | cons c rest ih => simp [find_by_name, h, ih]

/-! ### Specifications of the primitive remote operations -/

theorem _create_tag_group_spec (gen : Nat → String) (tg : TagGroup) (s : RState) :
    _create_tag_group gen tg s =
      (Except.ok { tg with id := DictVal.val (gen s.fresh) },
       { calls := s.calls ++ [Call.createTagGroup tg], fresh := s.fresh + 1 }) := rfl

theorem _create_tag_spec (gen : Nat → String) (t : Tag) (s : RState) :
    _create_tag gen t s =
      (Except.ok { t with id := DictVal.val (gen s.fresh) },
       { calls := s.calls ++ [Call.createTag t], fresh := s.fresh + 1 }) := rfl

theorem _update_tag_group_ok (tg : TagGroup) (s : RState) (i : Option String)
    (ps : List PatchOp) (hi : tg.id.lookup = Except.ok i)
    (hp : tag_group_patches tg = Except.ok ps) :
    _update_tag_group tg s =
      (Except.ok (), { s with calls := s.calls ++ [Call.updateTagGroup i ps] }) := by
  simp [_update_tag_group, hi, hp, andThen_ok]

theorem _update_tag_group_id_absent (tg : TagGroup) (s : RState)
    (h : tg.id = DictVal.absent) : _update_tag_group tg s = (Except.error (), s) := by
  simp [_update_tag_group, h, DictVal.lookup, andThen_error]

theorem _update_tag_group_patch_error (tg : TagGroup) (s : RState)
    (h : tag_group_patches tg = Except.error ()) :
    _update_tag_group tg s = (Except.error (), s) := by
  cases hid : tg.id <;>
    simp [_update_tag_group, hid, DictVal.lookup, h, andThen_ok, andThen_error]

theorem _update_tag_ok (t : Tag) (s : RState) (i : Option String) (ps : List PatchOp)
    (hi : t.id.lookup = Except.ok i) (hp : tag_patches t = Except.ok ps) :
    _update_tag t s =
      (Except.ok (), { s with calls := s.calls ++ [Call.updateTag i ps] }) := by
  simp [_update_tag, hi, hp, andThen_ok]

theorem _update_tag_id_absent (t : Tag) (s : RState) (h : t.id = DictVal.absent) :
    _update_tag t s = (Except.error (), s) := by
  simp [_update_tag, h, DictVal.lookup, andThen_error]

theorem _update_tag_patch_error (t : Tag) (s : RState)
    (h : tag_patches t = Except.error ()) : _update_tag t s = (Except.error (), s) := by
  cases hid : t.id <;>
    simp [_update_tag, hid, DictVal.lookup, h, andThen_ok, andThen_error]

theorem _delete_tag_ok (t : Tag) (s : RState) (h : t.id ≠ DictVal.absent) :
    _delete_tag t s =
      (Except.ok (), { s with calls := s.calls ++ [Call.deleteTag t.id.toOpt] }) := by
  simp [_delete_tag, DictVal.lookup_ne_absent h, andThen_ok]

theorem _delete_tag_absent (t : Tag) (s : RState) (h : t.id = DictVal.absent) :
    _delete_tag t s = (Except.error (), s) := by
  simp [_delete_tag, h, DictVal.lookup, andThen_error]

theorem _delete_tag_ok_inv {t : Tag} {s s1 : RState} {u : Unit}
    (h : _delete_tag t s = (Except.ok u, s1)) :
    t.id ≠ DictVal.absent ∧
      s1 = { s with calls := s.calls ++ [Call.deleteTag t.id.toOpt] } := by
  cases hid : t.id <;>
    simp_all [_delete_tag, hid, DictVal.lookup, DictVal.toOpt, andThen_ok, andThen_error]

theorem _delete_tag_group_ok (tg : TagGroup) (s : RState) (h : tg.id ≠ DictVal.absent) :
    _delete_tag_group tg s =
      (Except.ok (), { s with calls := s.calls ++ [Call.deleteTagGroup tg.id.toOpt] }) := by
  simp [_delete_tag_group, DictVal.lookup_ne_absent h, andThen_ok]

theorem _delete_tag_group_ok_inv {tg : TagGroup} {s s1 : RState} {u : Unit}
    (h : _delete_tag_group tg s = (Except.ok u, s1)) :
    tg.id ≠ DictVal.absent ∧
      s1 = { s with calls := s.calls ++ [Call.deleteTagGroup tg.id.toOpt] } := by
  cases hid : tg.id <;>
    simp_all [_delete_tag_group, hid, DictVal.lookup, DictVal.toOpt, andThen_ok, andThen_error]

/-! ### Patch builder lemmas -/

theorem tag_group_patches_eq (tg : TagGroup) (h1 : tg.shortName ≠ DictVal.absent)
    (h2 : tg.description ≠ DictVal.absent) (h3 : tg.mode ≠ DictVal.absent)
    (h4 : tg.restrictToFactSheetTypes ≠ DictVal.absent) :
    tag_group_patches tg =
      Except.ok [PatchOp.replace "/mode" tg.mode.toOpt,
        PatchOp.replace "/restrictToFactSheetTypes"
          (some (json_dumps_opt tg.restrictToFactSheetTypes.toOpt)),
        (if truthy tg.shortName.toOpt then PatchOp.replace "/shortName" tg.shortName.toOpt
         else PatchOp.remove "/shortName"),
        (if truthy tg.description.toOpt then PatchOp.replace "/description" tg.description.toOpt
         else PatchOp.remove "/description")] := by
  simp [tag_group_patches, DictVal.lookup_ne_absent h1, DictVal.lookup_ne_absent h2,
    DictVal.lookup_ne_absent h3, DictVal.lookup_ne_absent h4]

theorem tag_group_patches_shortName_absent (tg : TagGroup)
    (h : tg.shortName = DictVal.absent) : tag_group_patches tg = Except.error () := by
  simp [tag_group_patches, h, DictVal.lookup]

theorem tag_group_patches_description_absent (tg : TagGroup)
    (h : tg.description = DictVal.absent) : tag_group_patches tg = Except.error () := by
  cases hs : tg.shortName <;> simp [tag_group_patches, hs, h, DictVal.lookup]

theorem tag_group_patches_ok_inv {tg : TagGroup} {ps : List PatchOp}
    (h : tag_group_patches tg = Except.ok ps) :
    tg.shortName ≠ DictVal.absent ∧ tg.description ≠ DictVal.absent ∧
      tg.mode ≠ DictVal.absent ∧ tg.restrictToFactSheetTypes ≠ DictVal.absent ∧
      ps = [PatchOp.replace "/mode" tg.mode.toOpt,
        PatchOp.replace "/restrictToFactSheetTypes"
          (some (json_dumps_opt tg.restrictToFactSheetTypes.toOpt)),
        (if truthy tg.shortName.toOpt then PatchOp.replace "/shortName" tg.shortName.toOpt
         else PatchOp.remove "/shortName"),
        (if truthy tg.description.toOpt then PatchOp.replace "/description" tg.description.toOpt
         else PatchOp.remove "/description")] := by
  by_cases h1 : tg.shortName = DictVal.absent
  · rw [tag_group_patches_shortName_absent tg h1] at h; cases h
  by_cases h2 : tg.description = DictVal.absent
  · rw [tag_group_patches_description_absent tg h2] at h; cases h
  by_cases h3 : tg.mode = DictVal.absent
  · have : tag_group_patches tg = Except.error () := by
      cases hs : tg.shortName <;> cases hd : tg.description <;>
        simp_all [tag_group_patches, DictVal.lookup]
    rw [this] at h; cases h
  by_cases h4 : tg.restrictToFactSheetTypes = DictVal.absent
  · have : tag_group_patches tg = Except.error () := by
      cases hs : tg.shortName <;> cases hd : tg.description <;> cases hm : tg.mode <;>
        simp_all [tag_group_patches, DictVal.lookup]
    rw [this] at h; cases h
  · rw [tag_group_patches_eq tg h1 h2 h3 h4] at h
    cases h
    exact ⟨h1, h2, h3, h4, rfl⟩

theorem tag_patches_eq (t : Tag) (h1 : t.description ≠ DictVal.absent)
    (h2 : t.color ≠ DictVal.absent) (h3 : t.status ≠ DictVal.absent) :
    tag_patches t =
      Except.ok [(if truthy t.description.toOpt
          then PatchOp.replace "/description" t.description.toOpt
          else PatchOp.remove "/description"),
        PatchOp.replace "/color" t.color.toOpt,
        PatchOp.replace "/status" t.status.toOpt] := by
  simp [tag_patches, DictVal.lookup_ne_absent h1, DictVal.lookup_ne_absent h2,
    DictVal.lookup_ne_absent h3]

theorem tag_patches_description_absent (t : Tag) (h : t.description = DictVal.absent) :
    tag_patches t = Except.error () := by
  simp [tag_patches, h, DictVal.lookup]

theorem tag_patches_ok_inv {t : Tag} {ps : List PatchOp}
    (h : tag_patches t = Except.ok ps) :
    t.description ≠ DictVal.absent ∧ t.color ≠ DictVal.absent ∧ t.status ≠ DictVal.absent ∧
      ps = [(if truthy t.description.toOpt
          then PatchOp.replace "/description" t.description.toOpt
          else PatchOp.remove "/description"),
        PatchOp.replace "/color" t.color.toOpt,
        PatchOp.replace "/status" t.status.toOpt] := by
  by_cases h1 : t.description = DictVal.absent
  · rw [tag_patches_description_absent t h1] at h; cases h
  by_cases h2 : t.color = DictVal.absent
  · have : tag_patches t = Except.error () := by
      cases hd : t.description <;> simp_all [tag_patches, DictVal.lookup]
    rw [this] at h; cases h
  by_cases h3 : t.status = DictVal.absent
  · have : tag_patches t = Except.error () := by
      cases hd : t.description <;> cases hc : t.color <;>
        simp_all [tag_patches, DictVal.lookup]
    rw [this] at h; cases h
  · rw [tag_patches_eq t h1 h2 h3] at h
    cases h
    exact ⟨h1, h2, h3, rfl⟩

/-! ### Trace monotonicity: every step only appends calls -/

theorem andThen_calls_mono {α β : Type} {s : RState} {x : Except Unit α × RState}
    {f : α → M β} (hx : ∃ t, x.2.calls = s.calls ++ t)
    (hf : ∀ a s1, ∃ t, ((f a s1).2).calls = s1.calls ++ t) :
    ∃ t, ((andThen x f).2).calls = s.calls ++ t := by
  obtain ⟨t0, h0⟩ := hx
  obtain ⟨t1, h1⟩ := andThen_snd_calls x f hf
  exact ⟨t0 ++ t1, by rw [h1, h0, List.append_assoc]⟩

theorem calls_mono_update_tag_group (tg : TagGroup) (s : RState) :
    ∃ t, ((_update_tag_group tg s).2).calls = s.calls ++ t := by
  apply andThen_calls_mono ⟨[], by simp⟩
  intro i s1
  apply andThen_calls_mono ⟨[], by simp⟩
  intro ps s2
  exact ⟨[Call.updateTagGroup i ps], rfl⟩

theorem calls_mono_update_tag (t : Tag) (s : RState) :
    ∃ u, ((_update_tag t s).2).calls = s.calls ++ u := by
  apply andThen_calls_mono ⟨[], by simp⟩
  intro i s1
  apply andThen_calls_mono ⟨[], by simp⟩
  intro ps s2
  exact ⟨[Call.updateTag i ps], rfl⟩

theorem calls_mono_delete_tag (t : Tag) (s : RState) :
    ∃ u, ((_delete_tag t s).2).calls = s.calls ++ u := by
  apply andThen_calls_mono ⟨[], by simp⟩
  intro i s1
  exact ⟨[Call.deleteTag i], rfl⟩

theorem calls_mono_delete_tag_group (tg : TagGroup) (s : RState) :
    ∃ t, ((_delete_tag_group tg s).2).calls = s.calls ++ t := by
  apply andThen_calls_mono ⟨[], by simp⟩
  intro i s1
  exact ⟨[Call.deleteTagGroup i], rfl⟩

theorem calls_mono_restore_desired_tags (gen : Nat → String) (gid : Option String)
    (cs : List Tag) : ∀ (ds : List Tag) (s : RState),
    ∃ t, ((restore_desired_tags gen gid cs ds s).2).calls = s.calls ++ t := by
  intro ds
  induction ds with
  | nil => intro s; exact ⟨[], by simp [restore_desired_tags]⟩
  | cons d ds ih =>
    intro s
    rw [restore_desired_tags]
    apply andThen_calls_mono
    · cases hf : find_by_name Tag.name d cs with
      | some c =>
        simp only
        apply andThen_calls_mono ⟨[], by simp⟩
        intro ci s1
        apply andThen_calls_mono (calls_mono_update_tag _ s1)
        intro _ s2
        exact ⟨[], by simp⟩
      | none =>
        simp only [_create_tag_spec]
        exact ⟨[Call.createTag _], rfl⟩
    · intro d1 s1
      apply andThen_calls_mono (ih s1)
      intro ds1 s2
      exact ⟨[], by simp⟩

theorem calls_mono_delete_unmatched_tags (ds : List Tag) :
    ∀ (cs : List Tag) (s : RState),
    ∃ t, ((delete_unmatched_tags ds cs s).2).calls = s.calls ++ t := by
  intro cs
  induction cs with
  | nil => intro s; exact ⟨[], by simp [delete_unmatched_tags]⟩
  | cons c cs ih =>
    intro s
    rw [delete_unmatched_tags]
    apply andThen_calls_mono
    · by_cases hf : (find_by_name Tag.name c ds).isSome
      · simp [hf]
      · simp only [hf, if_false, Bool.false_eq_true]
        exact calls_mono_delete_tag c s
    · intro _ s1
      exact ih s1

theorem calls_mono_restore_tags (gen : Nat → String) (gid : Option String)
    (ds cs : List Tag) (s : RState) :
    ∃ t, ((_restore_tags gen gid ds cs s).2).calls = s.calls ++ t := by
  rw [_restore_tags]
  apply andThen_calls_mono (calls_mono_restore_desired_tags gen gid cs ds s)
  intro ds1 s1
  apply andThen_calls_mono (calls_mono_delete_unmatched_tags ds1 cs s1)
  intro _ s2
  exact ⟨[], by simp⟩

theorem calls_mono_process_desired_group (gen : Nat → String) (current : List TagGroup)
    (d : TagGroup) (s : RState) :
    ∃ t, ((process_desired_group gen current d s).2).calls = s.calls ++ t := by
  rw [process_desired_group]
  cases hf : find_by_name TagGroup.name d current with
  | some c =>
    simp only
    apply andThen_calls_mono ⟨[], by simp⟩
    intro ci s1
    apply andThen_calls_mono
    · by_cases hr : is_real_tag_group { d with id := DictVal.ofOpt ci }
      · simp only [hr, if_true]
        exact calls_mono_update_tag_group _ s1
      · simp [hr]
    · intro _ s2
      apply andThen_calls_mono ⟨[], by simp⟩
      intro gid s3
      apply andThen_calls_mono (calls_mono_restore_tags gen gid _ _ s3)
      intro ts s4
      exact ⟨[], by simp⟩
  | none =>
    simp only
    apply andThen_calls_mono
    · by_cases hr : is_real_tag_group d
      · simp only [hr, if_true, _create_tag_group_spec]
        exact ⟨[Call.createTagGroup d], rfl⟩
      · simp [hr]
    · intro d1 s1
      apply andThen_calls_mono ⟨[], by simp⟩
      intro gid s2
      apply andThen_calls_mono (calls_mono_restore_tags gen gid _ _ s2)
      intro ts s3
      exact ⟨[], by simp⟩

theorem calls_mono_process_desired_groups (gen : Nat → String) (current : List TagGroup) :
    ∀ (ds : List TagGroup) (s : RState),
    ∃ t, ((process_desired_groups gen current ds s).2).calls = s.calls ++ t := by
  intro ds
  induction ds with
  | nil => intro s; exact ⟨[], by simp [process_desired_groups]⟩
  | cons d ds ih =>
    intro s
    rw [process_desired_groups]
    apply andThen_calls_mono (calls_mono_process_desired_group gen current d s)
    intro d1 s1
    apply andThen_calls_mono (ih s1)
    intro ds1 s2
    exact ⟨[], by simp⟩

theorem calls_mono_delete_tags_list : ∀ (ts : List Tag) (s : RState),
    ∃ t, ((delete_tags_list ts s).2).calls = s.calls ++ t := by
  intro ts
  induction ts with
  | nil => intro s; exact ⟨[], by simp [delete_tags_list]⟩
  | cons t ts ih =>
    intro s
    rw [delete_tags_list]
    apply andThen_calls_mono (calls_mono_delete_tag t s)
    intro _ s1
    exact ih s1

theorem calls_mono_delete_unmatched_groups (ds : List TagGroup) :
    ∀ (cs : List TagGroup) (s : RState),
    ∃ t, ((delete_unmatched_groups ds cs s).2).calls = s.calls ++ t := by
  intro cs
  induction cs with
  | nil => intro s; exact ⟨[], by simp [delete_unmatched_groups]⟩
  | cons c cs ih =>
    intro s
    rw [delete_unmatched_groups]
    apply andThen_calls_mono
    · by_cases hf : (find_by_name TagGroup.name c ds).isSome
      · simp [hf]
      · simp only [hf, if_false, Bool.false_eq_true]
        apply andThen_calls_mono (calls_mono_delete_tags_list c.tags s)
        intro _ s1
        by_cases hr : is_real_tag_group c
        · simp only [hr, if_true]
          exact calls_mono_delete_tag_group c s1
        · simp [hr]
    · intro _ s1
      exact ih s1

/-! ### Shape of the calls added by the first phase of do_perform -/

theorem andThen_adds {α β : Type} {P : Call → Prop} {s : RState}
    {x : Except Unit α × RState} {f : α → M β}
    (hx : ∀ c ∈ x.2.calls, c ∈ s.calls ∨ P c)
    (hf : ∀ a s1, ∀ c ∈ ((f a s1).2).calls, c ∈ s1.calls ∨ P c) :
    ∀ c ∈ ((andThen x f).2).calls, c ∈ s.calls ∨ P c := by
  obtain ⟨r, s0⟩ := x
  cases r with
  | error e => simpa [andThen_error] using hx
  | ok a =>
    intro c hc
    rcases hf a s0 c (by simpa [andThen_ok] using hc) with h | h
    · exact hx c h
    · exact Or.inr h

theorem mem_calls_append_single {c x : Call} {l : List Call} (h : c ∈ l ++ [x]) :
    c ∈ l ∨ c = x := by
  simpa using h

theorem adds_ok_update_tag_group (tg : TagGroup) (s : RState) :
    ∀ c ∈ ((_update_tag_group tg s).2).calls, c ∈ s.calls ∨ phase1_ok c = true := by
  rw [_update_tag_group]
  apply andThen_adds (fun c hc => Or.inl hc)
  intro i s1
  apply andThen_adds (fun c hc => Or.inl hc)
  intro ps s2 c hc
  rcases mem_calls_append_single hc with h | h
  · exact Or.inl h
  · exact Or.inr (by simp [h, phase1_ok])

theorem adds_ok_update_tag (t : Tag) (s : RState) :
    ∀ c ∈ ((_update_tag t s).2).calls, c ∈ s.calls ∨ phase1_ok c = true := by
  rw [_update_tag]
  apply andThen_adds (fun c hc => Or.inl hc)
  intro i s1
  apply andThen_adds (fun c hc => Or.inl hc)
  intro ps s2 c hc
  rcases mem_calls_append_single hc with h | h
  · exact Or.inl h
  · exact Or.inr (by simp [h, phase1_ok])

theorem adds_ok_delete_tag (t : Tag) (s : RState) :
    ∀ c ∈ ((_delete_tag t s).2).calls, c ∈ s.calls ∨ phase1_ok c = true := by
  rw [_delete_tag]
  apply andThen_adds (fun c hc => Or.inl hc)
  intro i s1 c hc
  rcases mem_calls_append_single hc with h | h
  · exact Or.inl h
  · exact Or.inr (by simp [h, phase1_ok])

theorem adds_ok_create_tag (gen : Nat → String) (t : Tag) (s : RState) :
    ∀ c ∈ ((_create_tag gen t s).2).calls, c ∈ s.calls ∨ phase1_ok c = true := by
  intro c hc
  rw [_create_tag_spec] at hc
  rcases mem_calls_append_single hc with h | h
  · exact Or.inl h
  · exact Or.inr (by simp [h, phase1_ok])

theorem adds_ok_create_tag_group (gen : Nat → String) (tg : TagGroup) (s : RState)
    (hr : is_real_tag_group tg = true) :
    ∀ c ∈ ((_create_tag_group gen tg s).2).calls, c ∈ s.calls ∨ phase1_ok c = true := by
  intro c hc
  rw [_create_tag_group_spec] at hc
  rcases mem_calls_append_single hc with h | h
  · exact Or.inl h
  · exact Or.inr (by simp [h, phase1_ok, hr])

theorem adds_ok_restore_desired_tags (gen : Nat → String) (gid : Option String)
    (cs : List Tag) : ∀ (ds : List Tag) (s : RState),
    ∀ c ∈ ((restore_desired_tags gen gid cs ds s).2).calls,
      c ∈ s.calls ∨ phase1_ok c = true := by
  intro ds
  induction ds with
  | nil => intro s c hc; exact Or.inl (by simpa [restore_desired_tags] using hc)
  | cons d ds ih =>
    intro s
    rw [restore_desired_tags]
    apply andThen_adds
    · cases hf : find_by_name Tag.name d cs with
      | some c0 =>
        simp only
        apply andThen_adds (fun c hc => Or.inl hc)
        intro ci s1
        apply andThen_adds (adds_ok_update_tag _ s1)
        intro _ s2 c hc
        exact Or.inl (by simpa using hc)
      | none =>
        simp only
        exact adds_ok_create_tag gen _ s
    · intro d1 s1
      apply andThen_adds (ih s1)
      intro ds1 s2 c hc
      exact Or.inl (by simpa using hc)

theorem adds_ok_delete_unmatched_tags (ds : List Tag) : ∀ (cs : List Tag) (s : RState),
    ∀ c ∈ ((delete_unmatched_tags ds cs s).2).calls,
      c ∈ s.calls ∨ phase1_ok c = true := by
  intro cs
  induction cs with
  | nil => intro s c hc; exact Or.inl (by simpa [delete_unmatched_tags] using hc)
  | cons c0 cs ih =>
    intro s
    rw [delete_unmatched_tags]
    apply andThen_adds
    · by_cases hf : (find_by_name Tag.name c0 ds).isSome
      · simp only [hf, if_true]
        exact fun c hc => Or.inl hc
      · simp only [hf, if_false, Bool.false_eq_true]
        exact adds_ok_delete_tag c0 s
    · intro _ s1
      exact ih s1

theorem adds_ok_restore_tags (gen : Nat → String) (gid : Option String)
    (ds cs : List Tag) (s : RState) :
    ∀ c ∈ ((_restore_tags gen gid ds cs s).2).calls,
      c ∈ s.calls ∨ phase1_ok c = true := by
  rw [_restore_tags]
  apply andThen_adds (adds_ok_restore_desired_tags gen gid cs ds s)
  intro ds1 s1
  apply andThen_adds (adds_ok_delete_unmatched_tags ds1 cs s1)
  intro _ s2 c hc
  exact Or.inl (by simpa using hc)

theorem adds_ok_process_desired_group (gen : Nat → String) (current : List TagGroup)
    (d : TagGroup) (s : RState) :
    ∀ c ∈ ((process_desired_group gen current d s).2).calls,
      c ∈ s.calls ∨ phase1_ok c = true := by
  rw [process_desired_group]
  cases hf : find_by_name TagGroup.name d current with
  | some c0 =>
    simp only
    apply andThen_adds (fun c hc => Or.inl hc)
    intro ci s1
    apply andThen_adds
    · by_cases hr : is_real_tag_group { d with id := DictVal.ofOpt ci }
      · simp only [hr, if_true]
        exact adds_ok_update_tag_group _ s1
      · simp only [hr, if_false, Bool.false_eq_true]
        exact fun c hc => Or.inl hc
    · intro _ s2
      apply andThen_adds (fun c hc => Or.inl hc)
      intro gid s3
      apply andThen_adds (adds_ok_restore_tags gen gid _ _ s3)
      intro ts s4 c hc
      exact Or.inl (by simpa using hc)
  | none =>
    simp only
    apply andThen_adds
    · by_cases hr : is_real_tag_group d
      · simp only [hr, if_true]
        exact adds_ok_create_tag_group gen d s hr
      · simp only [hr, if_false, Bool.false_eq_true]
        exact fun c hc => Or.inl hc
    · intro d1 s1
      apply andThen_adds (fun c hc => Or.inl hc)
      intro gid s2
      apply andThen_adds (adds_ok_restore_tags gen gid _ _ s2)
      intro ts s3 c hc
      exact Or.inl (by simpa using hc)

theorem adds_ok_process_desired_groups (gen : Nat → String) (current : List TagGroup) :
    ∀ (ds : List TagGroup) (s : RState),
    ∀ c ∈ ((process_desired_groups gen current ds s).2).calls,
      c ∈ s.calls ∨ phase1_ok c = true := by
  intro ds
  induction ds with
  | nil => intro s c hc; exact Or.inl (by simpa [process_desired_groups] using hc)
  | cons d ds ih =>
    intro s
    rw [process_desired_groups]
    apply andThen_adds (adds_ok_process_desired_group gen current d s)
    intro d1 s1
    apply andThen_adds (ih s1)
    intro ds1 s2 c hc
    exact Or.inl (by simpa using hc)

/-! ### Success inversion and the exact delete-phase trace -/

theorem andThen_ok_inv {α β : Type} {x : Except Unit α × RState} {f : α → M β}
    {b : β} {s2 : RState} (h : andThen x f = (Except.ok b, s2)) :
    ∃ a s1, x = (Except.ok a, s1) ∧ f a s1 = (Except.ok b, s2) := by
  obtain ⟨r, s0⟩ := x
  cases r with
  | error e => simp [andThen_error] at h
  | ok a => exact ⟨a, s0, rfl, h⟩

theorem delete_tags_list_ok : ∀ {ts : List Tag} {s s1 : RState} {u : Unit},
    delete_tags_list ts s = (Except.ok u, s1) →
    s1.calls = s.calls ++ ts.map fun t => Call.deleteTag t.id.toOpt := by
  intro ts
  induction ts with
  | nil =>
    intro s s1 u h
    rw [delete_tags_list] at h
    cases h
    simp
  | cons t ts ih =>
    intro s s1 u h
    rw [delete_tags_list] at h
    obtain ⟨a, smid, hstep, hrest⟩ := andThen_ok_inv h
    obtain ⟨-, hsmid⟩ := _delete_tag_ok_inv hstep
    subst hsmid
    rw [ih hrest]
    simp

theorem deletePhase_cons (dn : List String) (c : TagGroup) (cs : List TagGroup) :
    deletePhase dn (c :: cs) =
      (if c.name ∈ dn then []
       else (c.tags.map fun t => Call.deleteTag t.id.toOpt) ++
         (if is_real_tag_group c then [Call.deleteTagGroup c.id.toOpt] else [])) ++
        deletePhase dn cs := by
  rw [deletePhase, deletePhase, List.flatMap_cons]

theorem delete_unmatched_groups_ok {ds : List TagGroup} :
    ∀ {cs : List TagGroup} {s s1 : RState} {u : Unit},
    delete_unmatched_groups ds cs s = (Except.ok u, s1) →
    s1.calls = s.calls ++ deletePhase (ds.map TagGroup.name) cs := by
  intro cs
  induction cs with
  | nil =>
    intro s s1 u h
    rw [delete_unmatched_groups] at h
    cases h
    simp [deletePhase]
  | cons c cs ih =>
    intro s s1 u h
    rw [delete_unmatched_groups] at h
    obtain ⟨a, smid, hstep, hrest⟩ := andThen_ok_inv h
    by_cases hf : (find_by_name TagGroup.name c ds).isSome
    · rw [if_pos hf] at hstep
      cases hstep
      have hmem : c.name ∈ ds.map TagGroup.name := by
        obtain ⟨y, hy, hname⟩ := find_by_name_isSome_iff.mp hf
        exact List.mem_map.mpr ⟨y, hy, hname⟩
      rw [ih hrest, deletePhase_cons, if_pos hmem]
      simp
    · rw [if_neg hf] at hstep
      obtain ⟨b, smid2, htags, hgrp⟩ := andThen_ok_inv hstep
      have hcalls2 := delete_tags_list_ok htags
      have hnomem : c.name ∉ ds.map TagGroup.name := by
        rw [Option.isSome_iff_ne_none, not_ne_iff] at hf
        intro hmem
        obtain ⟨y, hy, hname⟩ := List.mem_map.mp hmem
        exact (find_by_name_eq_none.mp hf) y hy hname
      have hfinal : smid.calls =
          smid2.calls ++ (if is_real_tag_group c then [Call.deleteTagGroup c.id.toOpt] else []) := by
        by_cases hr : is_real_tag_group c
        · rw [if_pos hr] at hgrp
          obtain ⟨-, hmid⟩ := _delete_tag_group_ok_inv hgrp
          subst hmid
          simp [hr]
        · rw [if_neg hr] at hgrp
          cases hgrp
          simp [hr]
      rw [ih hrest, hfinal, hcalls2, deletePhase_cons, if_neg hnomem]
      simp [List.append_assoc]

theorem do_perform_ok_inv {gen : Nat → String} {desired current : List TagGroup}
    {s st : RState} {ds : List TagGroup}
    (h : do_perform gen desired current s = (Except.ok ds, st)) :
    ∃ s1, process_desired_groups gen current desired s = (Except.ok ds, s1) ∧
      delete_unmatched_groups ds current s1 = (Except.ok (), st) := by
  rw [do_perform] at h
  obtain ⟨ds1, s1, hproc, hrest⟩ := andThen_ok_inv h
  obtain ⟨u, s2, hdel, hpure⟩ := andThen_ok_inv hrest
  obtain ⟨h1, h2⟩ := Prod.mk.injEq .. ▸ hpure
  cases h1
  cases h2
  cases u
  exact ⟨s1, hproc, hdel⟩

/-! ### Reconciling against an empty current list: pure creates -/

theorem pair_ok_inv {α : Type} {a b : α} {s t : RState}
    (h : ((Except.ok a : Except Unit α), s) = (Except.ok b, t)) : a = b ∧ s = t := by
  obtain ⟨h1, h2⟩ := Prod.mk.injEq .. ▸ h
  exact ⟨Except.ok.inj h1, h2⟩

theorem restore_desired_tags_nil_cs (gen : Nat → String) (gid : Option String) :
    ∀ (ds : List Tag) (s : RState),
    restore_desired_tags gen gid [] ds s =
      (Except.ok (createAdopt gen gid s.fresh ds),
       { calls := s.calls ++
           ds.map fun d => Call.createTag { d with tagGroupId := DictVal.ofOpt gid },
         fresh := s.fresh + ds.length }) := by
  intro ds
  induction ds with
  | nil => intro s; simp [restore_desired_tags, createAdopt]
  | cons d ds ih =>
    intro s
    rw [restore_desired_tags]
    show andThen (_create_tag gen { d with tagGroupId := DictVal.ofOpt gid } s) _ = _
    rw [_create_tag_spec, andThen_ok, ih, andThen_ok]
    simp only [createAdopt, Prod.mk.injEq, Except.ok.injEq, RState.mk.injEq, List.map_cons,
      List.length_cons, List.append_assoc, List.cons_append, List.singleton_append]
    exact ⟨trivial, rfl, by omega⟩

theorem _restore_tags_nil_cs (gen : Nat → String) (gid : Option String)
    (ds : List Tag) (s : RState) :
    _restore_tags gen gid ds [] s =
      (Except.ok (createAdopt gen gid s.fresh ds),
       { calls := s.calls ++
           ds.map fun d => Call.createTag { d with tagGroupId := DictVal.ofOpt gid },
         fresh := s.fresh + ds.length }) := by
  rw [_restore_tags, restore_desired_tags_nil_cs, andThen_ok, delete_unmatched_tags,
    andThen_ok]

/-! ### The unmatched sentinel desired group: tags created, no group call -/

theorem process_group_sentinel_unmatched (gen : Nat → String) (current : List TagGroup)
    (d : TagGroup) (s : RState) (hreal : is_real_tag_group d = false)
    (hfind : find_by_name TagGroup.name d current = none) :
    process_desired_group gen current d s =
      (Except.ok { d with id := DictVal.null, tags := createAdopt gen none s.fresh d.tags },
       { calls := s.calls ++
           d.tags.map fun t => Call.createTag { t with tagGroupId := DictVal.null },
         fresh := s.fresh + d.tags.length }) := by
  rw [process_desired_group, hfind]
  rw [if_neg (by simp [hreal])]
  rw [andThen_ok]
  show andThen ((DictVal.null : DictVal String).lookup, s) _ = _
  rw [show (DictVal.null : DictVal String).lookup = Except.ok none from rfl, andThen_ok]
  show andThen (_restore_tags gen none d.tags [] s) _ = _
  rw [_restore_tags_nil_cs, andThen_ok]
  simp [DictVal.ofOpt]

/-! ### Name preservation through the first phase -/

theorem process_desired_group_ok_name {gen : Nat → String} {current : List TagGroup}
    {d : TagGroup} {s : RState} {g1 : TagGroup} {s1 : RState}
    (h : process_desired_group gen current d s = (Except.ok g1, s1)) :
    g1.name = d.name := by
  rw [process_desired_group] at h
  cases hf : find_by_name TagGroup.name d current with
  | some c =>
    rw [hf] at h
    obtain ⟨ci, s0, hpair, h2⟩ := andThen_ok_inv h
    obtain ⟨u1, s2, hupd, h3⟩ := andThen_ok_inv h2
    obtain ⟨gid, s3, hgl, h4⟩ := andThen_ok_inv h3
    obtain ⟨ts, s4, hrt, h5⟩ := andThen_ok_inv h4
    obtain ⟨hg, -⟩ := pair_ok_inv h5
    rw [← hg]
  | none =>
    rw [hf] at h
    obtain ⟨d1, s0, hcreate, h2⟩ := andThen_ok_inv h
    obtain ⟨gid, s2, hgl, h3⟩ := andThen_ok_inv h2
    obtain ⟨ts, s3, hrt, h4⟩ := andThen_ok_inv h3
    obtain ⟨hg, -⟩ := pair_ok_inv h4
    have hname : d1.name = d.name := by
      by_cases hr : is_real_tag_group d
      · rw [if_pos hr, _create_tag_group_spec] at hcreate
        obtain ⟨hd1, -⟩ := pair_ok_inv hcreate
        rw [← hd1]
      · rw [if_neg hr] at hcreate
        obtain ⟨hd1, -⟩ := pair_ok_inv hcreate
        rw [← hd1]
    rw [← hg]
    exact hname

theorem process_desired_groups_ok_names {gen : Nat → String} {current : List TagGroup} :
    ∀ {ds : List TagGroup} {s : RState} {ds1 : List TagGroup} {s1 : RState},
    process_desired_groups gen current ds s = (Except.ok ds1, s1) →
    ds1.map TagGroup.name = ds.map TagGroup.name := by
  intro ds
  induction ds with
  | nil =>
    intro s ds1 s1 h
    rw [process_desired_groups] at h
    obtain ⟨h1, -⟩ := pair_ok_inv h
    rw [← h1]
  | cons d ds ih =>
    intro s ds1 s1 h
    rw [process_desired_groups] at h
    obtain ⟨d1, sA, hpg, h2⟩ := andThen_ok_inv h
    obtain ⟨ds2, sB, hrest, h3⟩ := andThen_ok_inv h2
    obtain ⟨h1, -⟩ := pair_ok_inv h3
    rw [← h1]
    simp [process_desired_group_ok_name hpg, ih hrest]

/-! ### Counting group deletes in the delete phase -/

theorem countP_deleteTag_map (ts : List Tag) :
    (ts.map fun t => Call.deleteTag t.id.toOpt).countP isDeleteGroup = 0 := by
  induction ts with
  | nil => rfl
  | cons t ts ih => simp [List.countP_cons, isDeleteGroup, ih]

theorem countP_isDeleteGroup_deletePhase (dn : List String) : ∀ cs : List TagGroup,
    (deletePhase dn cs).countP isDeleteGroup =
      (cs.filter fun c => !(decide (c.name ∈ dn)) && is_real_tag_group c).length := by
  intro cs
  induction cs with
  | nil => simp [deletePhase]
  | cons c cs ih =>
    rw [deletePhase_cons, List.countP_append, ih]
    by_cases hm : c.name ∈ dn
    · simp [hm]
    · by_cases hr : is_real_tag_group c
      · simp [hm, hr, List.countP_append, countP_deleteTag_map, List.countP_cons,
          isDeleteGroup, Nat.add_comm]
      · simp [hm, hr, List.countP_append, countP_deleteTag_map, isDeleteGroup]

theorem phase1_ok_no_delete {c : Call} (h : phase1_ok c = true) :
    isDeleteGroup c = false := by
  cases c <;> simp_all [phase1_ok, isDeleteGroup]

theorem mem_deletePhase {c : Call} {dn : List String} : ∀ {cs : List TagGroup},
    c ∈ deletePhase dn cs →
    (∃ i, c = Call.deleteTag i) ∨ (∃ i, c = Call.deleteTagGroup i) := by
  intro cs
  induction cs with
  | nil => intro h; simp [deletePhase] at h
  | cons g cs ih =>
    intro h
    rw [deletePhase_cons] at h
    rcases List.mem_append.mp h with h1 | h2
    · by_cases hm : g.name ∈ dn
      · rw [if_pos hm] at h1; simp at h1
      · rw [if_neg hm] at h1
        rcases List.mem_append.mp h1 with h3 | h4
        · obtain ⟨t, -, ht⟩ := List.mem_map.mp h3
          exact Or.inl ⟨t.id.toOpt, ht.symm⟩
        · by_cases hr : is_real_tag_group g
          · rw [if_pos hr] at h4
            simp at h4
            exact Or.inr ⟨g.id.toOpt, h4⟩
          · rw [if_neg hr] at h4; simp at h4
    · exact ih h2

/-! ### Unmatched sentinel groups through the whole first phase -/

theorem process_groups_sentinel (gen : Nat → String) (current : List TagGroup) :
    ∀ {ds : List TagGroup} {s : RState} {ds1 : List TagGroup} {s1 : RState},
    process_desired_groups gen current ds s = (Except.ok ds1, s1) →
    ∀ D ∈ ds, is_real_tag_group D = false →
      find_by_name TagGroup.name D current = none →
      (∃ D1 ∈ ds1, D1.name = D.name ∧ D1.id = DictVal.null) ∧
      ∀ t ∈ D.tags, Call.createTag { t with tagGroupId := DictVal.null } ∈ s1.calls := by
  intro ds
  induction ds with
  | nil => intro s ds1 s1 h D hD; simp at hD
  | cons d ds ih =>
    intro s ds1 s1 h D hD hreal hfind
    rw [process_desired_groups] at h
    obtain ⟨d1, sA, hpg, h2⟩ := andThen_ok_inv h
    obtain ⟨ds2, sB, hrest, h3⟩ := andThen_ok_inv h2
    obtain ⟨hds1, hs1⟩ := pair_ok_inv h3
    subst hds1
    subst hs1
    rcases List.mem_cons.mp hD with hDd | hDtail
    · subst hDd
      rw [process_group_sentinel_unmatched gen current D s hreal hfind] at hpg
      obtain ⟨hd1, hsA⟩ := pair_ok_inv hpg
      constructor
      · refine ⟨d1, List.mem_cons_self _ _, ?_, ?_⟩ <;> rw [← hd1]
      · intro t ht
        have hmemA : Call.createTag { t with tagGroupId := DictVal.null } ∈ sA.calls := by
          rw [← hsA]
          exact List.mem_append.mpr (Or.inr (List.mem_map.mpr ⟨t, ht, rfl⟩))
        obtain ⟨tl, htl⟩ := calls_mono_process_desired_groups gen current ds sA
        rw [hrest] at htl
        rw [htl]
        exact List.mem_append.mpr (Or.inl hmemA)
    · obtain ⟨⟨D1, hD1, hn, hid⟩, hcr⟩ := ih hrest D hDtail hreal hfind
      exact ⟨⟨D1, List.mem_cons_of_mem _ hD1, hn, hid⟩, hcr⟩

/-! ### Claims C1 and C2 -/

/-- C1: over any successful reconcile run, every create-group call in the
trace is for a real group (never for the sentinel name), the number of
delete-group calls equals the number of unmatched real current groups (so
an unmatched current sentinel is discarded after its tag deletes with no
group-level call), and a desired sentinel group with no current match ends
the run with a null id while each of its tags is created with a null
tagGroupId. -/
theorem claim_C1_sentinel_never_created_or_deleted (gen : Nat → String)
    (desired current : List TagGroup) (ds : List TagGroup) (st : RState)
    (h : do_perform gen desired current initState = (Except.ok ds, st)) :
    (∀ g, Call.createTagGroup g ∈ st.calls → is_real_tag_group g = true) ∧
    (st.calls.countP isDeleteGroup =
      (current.filter fun c =>
        !(decide (c.name ∈ desired.map TagGroup.name)) && is_real_tag_group c).length) ∧
    (∀ D ∈ desired, is_real_tag_group D = false →
      find_by_name TagGroup.name D current = none →
      (∃ D1 ∈ ds, D1.name = D.name ∧ D1.id = DictVal.null) ∧
      ∀ t ∈ D.tags, Call.createTag { t with tagGroupId := DictVal.null } ∈ st.calls) := by
  obtain ⟨s1, hproc, hdel⟩ := do_perform_ok_inv h
  have hnames : ds.map TagGroup.name = desired.map TagGroup.name :=
    process_desired_groups_ok_names hproc
  have hcalls : st.calls = s1.calls ++ deletePhase (desired.map TagGroup.name) current := by
    rw [← hnames]
    exact delete_unmatched_groups_ok hdel
  have hphase1 : ∀ c ∈ s1.calls, phase1_ok c = true := by
    have hadds := adds_ok_process_desired_groups gen current desired initState
    rw [hproc] at hadds
    intro c hc
    rcases hadds c hc with hmem | hok
    · simp [initState] at hmem
    · exact hok
  refine ⟨?_, ?_, ?_⟩
  · intro g hg
    rw [hcalls] at hg
    rcases List.mem_append.mp hg with h1 | h2
    · have := hphase1 _ h1
      simpa [phase1_ok] using this
    · rcases mem_deletePhase h2 with ⟨i, hi⟩ | ⟨i, hi⟩ <;> cases hi
  · rw [hcalls, List.countP_append, countP_isDeleteGroup_deletePhase]
    have hzero : s1.calls.countP isDeleteGroup = 0 := by
      rw [List.countP_eq_zero]
      intro c hc
      rw [phase1_ok_no_delete (hphase1 c hc)]
      simp
    rw [hzero, Nat.zero_add]
  · intro D hD hreal hfind
    obtain ⟨hmem, hcr⟩ := process_groups_sentinel gen current hproc D hD hreal hfind
    refine ⟨hmem, fun t ht => ?_⟩
    rw [hcalls]
    exact List.mem_append.mpr (Or.inl (hcr t ht))

/-- C2: on a successful reconcile run, the trace ends with exactly the
delete-phase calls: for every unmatched current group, one delete per tag
in list order followed, only for real groups, by the group delete; no
delete-group call occurs anywhere earlier in the trace. -/
theorem claim_C2_tags_deleted_before_group (gen : Nat → String)
    (desired current : List TagGroup) (ds : List TagGroup) (st : RState)
    (h : do_perform gen desired current initState = (Except.ok ds, st)) :
    ∃ pre, st.calls = pre ++ deletePhase (desired.map TagGroup.name) current ∧
      ∀ c ∈ pre, isDeleteGroup c = false := by
  obtain ⟨s1, hproc, hdel⟩ := do_perform_ok_inv h
  have hnames : ds.map TagGroup.name = desired.map TagGroup.name :=
    process_desired_groups_ok_names hproc
  refine ⟨s1.calls, ?_, ?_⟩
  · rw [← hnames]
    exact delete_unmatched_groups_ok hdel
  · have hadds := adds_ok_process_desired_groups gen current desired initState
    rw [hproc] at hadds
    intro c hc
    rcases hadds c hc with hmem | hok
    · simp [initState] at hmem
    · exact phase1_ok_no_delete hok

/-! ### Concrete witness data -/

/-- Generator for the ids returned by create mutations in witness runs. -/
def cgen : Nat → String := fun n => "new" ++ toString n

/-- A snapshot tag without ids, as read from disk. -/
def c1tag : Tag :=
  { id := DictVal.absent, name := "t1", description := DictVal.null,
    color := DictVal.val "red", status := DictVal.val "ACTIVE",
    tagGroupId := DictVal.absent }

/-- A desired sentinel group carrying one tag. -/
def c1group : TagGroup :=
  { id := DictVal.absent, name := "__OTHER_TAGS__", mode := DictVal.absent,
    shortName := DictVal.absent, description := DictVal.absent,
    restrictToFactSheetTypes := DictVal.absent, tags := [c1tag] }

/-- The reconciled sentinel group after a run against empty current state. -/
def c1groupResult : TagGroup :=
  { id := DictVal.null, name := "__OTHER_TAGS__", mode := DictVal.absent,
    shortName := DictVal.absent, description := DictVal.absent,
    restrictToFactSheetTypes := DictVal.absent,
    tags := [{ id := DictVal.val "new0", name := "t1", description := DictVal.null,
               color := DictVal.val "red", status := DictVal.val "ACTIVE",
               tagGroupId := DictVal.null }] }

/-- The trace of that run: one tag create, no group-level call. -/
def c1state : RState :=
  { calls := [Call.createTag { id := DictVal.absent, name := "t1",
                               description := DictVal.null, color := DictVal.val "red",
                               status := DictVal.val "ACTIVE",
                               tagGroupId := DictVal.null }],
    fresh := 1 }

theorem claim_C1_witness :
    do_perform cgen [c1group] [] initState = (Except.ok [c1groupResult], c1state) ∧
    c1state.calls.countP isDeleteGroup =
      (([] : List TagGroup).filter fun c =>
        !(decide (c.name ∈ [c1group].map TagGroup.name)) && is_real_tag_group c).length := by
  have h : do_perform cgen [c1group] [] initState = (Except.ok [c1groupResult], c1state) := by
    rfl
  exact ⟨h,
    (claim_C1_sentinel_never_created_or_deleted cgen [c1group] [] [c1groupResult] c1state h).2.1⟩

/-- A current tag of the group named Legacy, with its remote id. -/
def c2tagA : Tag :=
  { id := DictVal.val "tA", name := "A", description := DictVal.null,
    color := DictVal.val "red", status := DictVal.val "ACTIVE",
    tagGroupId := DictVal.absent }

/-- A second current tag of the Legacy group. -/
def c2tagB : Tag :=
  { id := DictVal.val "tB", name := "B", description := DictVal.null,
    color := DictVal.val "blue", status := DictVal.val "ACTIVE",
    tagGroupId := DictVal.absent }

/-- A real current group with two tags and no desired counterpart. -/
def c2group : TagGroup :=
  { id := DictVal.val "gL", name := "Legacy", mode := DictVal.val "OPTIONAL",
    shortName := DictVal.null, description := DictVal.null,
    restrictToFactSheetTypes := DictVal.val ["Application"], tags := [c2tagA, c2tagB] }

/-- The trace of deleting the Legacy group: tags first, then the group. -/
def c2state : RState :=
  { calls := [Call.deleteTag (some "tA"), Call.deleteTag (some "tB"),
      Call.deleteTagGroup (some "gL")],
    fresh := 0 }

theorem claim_C2_witness :
    do_perform cgen [] [c2group] initState = (Except.ok [], c2state) ∧
    (∃ pre, c2state.calls =
        pre ++ deletePhase (([] : List TagGroup).map TagGroup.name) [c2group] ∧
      ∀ c ∈ pre, isDeleteGroup c = false) := by
  have h : do_perform cgen [] [c2group] initState = (Except.ok [], c2state) := by
    rfl
  exact ⟨h, claim_C2_tags_deleted_before_group cgen [] [c2group] [] c2state h⟩

/-! ### Claim C7: the create path -/

theorem process_group_real_unmatched (gen : Nat → String) (current : List TagGroup)
    (d : TagGroup) (s : RState) (hreal : is_real_tag_group d = true)
    (hfind : find_by_name TagGroup.name d current = none) :
    process_desired_group gen current d s =
      (Except.ok { d with id := DictVal.val (gen s.fresh),
                          tags := createAdopt gen (some (gen s.fresh)) (s.fresh + 1) d.tags },
       { calls := (s.calls ++ [Call.createTagGroup d]) ++
           d.tags.map fun t => Call.createTag { t with tagGroupId := DictVal.val (gen s.fresh) },
         fresh := (s.fresh + 1) + d.tags.length }) := by
  rw [process_desired_group, hfind, if_pos hreal, _create_tag_group_spec, andThen_ok]
  show andThen ((DictVal.val (gen s.fresh) : DictVal String).lookup, _) _ = _
  rw [show (DictVal.val (gen s.fresh) : DictVal String).lookup =
      Except.ok (some (gen s.fresh)) from rfl, andThen_ok]
  show andThen (_restore_tags gen (some (gen s.fresh)) d.tags [] _) _ = _
  rw [_restore_tags_nil_cs, andThen_ok]
  simp [DictVal.ofOpt]

/-- C7: reconciling one real desired group with a single desired tag
against empty current state issues exactly a create-group call followed by
a create-tag call whose tagGroupId is the id the group create returned;
that group id and the id the tag create returned are adopted into the
desired records. -/
theorem claim_C7_create_path (gen : Nat → String) (g : TagGroup) (t : Tag)
    (hreal : is_real_tag_group g = true) (htags : g.tags = [t]) :
    do_perform gen [g] [] initState =
      (Except.ok [{ g with id := DictVal.val (gen 0),
                           tags := [{ t with tagGroupId := DictVal.val (gen 0),
                                             id := DictVal.val (gen 1) }] }],
       { calls := [Call.createTagGroup g,
           Call.createTag { t with tagGroupId := DictVal.val (gen 0) }],
         fresh := 2 }) := by
  rw [do_perform, process_desired_groups]
  simp only [process_group_real_unmatched gen [] g initState hreal rfl, andThen_ok,
    process_desired_groups, delete_unmatched_groups]
  simp [initState, htags, createAdopt, DictVal.ofOpt]

/-- A desired tag for the create-path witness run. -/
def c7tag : Tag :=
  { id := DictVal.absent, name := "High", description := DictVal.null,
    color := DictVal.val "red", status := DictVal.val "ACTIVE",
    tagGroupId := DictVal.absent }

/-- A real desired group holding exactly one tag. -/
def c7group : TagGroup :=
  { id := DictVal.absent, name := "Risk", mode := DictVal.val "MANDATORY",
    shortName := DictVal.null, description := DictVal.null,
    restrictToFactSheetTypes := DictVal.val [], tags := [c7tag] }

theorem claim_C7_witness :
    is_real_tag_group c7group = true ∧ c7group.tags = [c7tag] ∧
    do_perform cgen [c7group] [] initState =
      (Except.ok [{ c7group with id := DictVal.val (cgen 0),
                                 tags := [{ c7tag with tagGroupId := DictVal.val (cgen 0),
                                                       id := DictVal.val (cgen 1) }] }],
       { calls := [Call.createTagGroup c7group,
           Call.createTag { c7tag with tagGroupId := DictVal.val (cgen 0) }],
         fresh := 2 }) :=
  ⟨rfl, rfl, claim_C7_create_path cgen c7group c7tag rfl rfl⟩

/-! ### Claim C5: patch shapes -/

/-- C5: a group patch always contains a replace for /mode and a replace
for /restrictToFactSheetTypes carrying the JSON serialization; /shortName
and /description get a replace exactly when their value is truthy and a
remove otherwise, and no replace for them ever carries an empty or null
value.  The tag patch follows the same rule for /description and always
replaces /color and /status. -/
theorem claim_C5_patch_shapes :
    (∀ (tg : TagGroup) (ps : List PatchOp), tag_group_patches tg = Except.ok ps →
      PatchOp.replace "/mode" tg.mode.toOpt ∈ ps ∧
      PatchOp.replace "/restrictToFactSheetTypes"
        (some (json_dumps_opt tg.restrictToFactSheetTypes.toOpt)) ∈ ps ∧
      (truthy tg.shortName.toOpt = true →
        PatchOp.replace "/shortName" tg.shortName.toOpt ∈ ps) ∧
      (truthy tg.shortName.toOpt = false → PatchOp.remove "/shortName" ∈ ps) ∧
      (truthy tg.description.toOpt = true →
        PatchOp.replace "/description" tg.description.toOpt ∈ ps) ∧
      (truthy tg.description.toOpt = false → PatchOp.remove "/description" ∈ ps) ∧
      (∀ v, PatchOp.replace "/shortName" v ∈ ps → truthy v = true) ∧
      (∀ v, PatchOp.replace "/description" v ∈ ps → truthy v = true)) ∧
    (∀ (t : Tag) (ps : List PatchOp), tag_patches t = Except.ok ps →
      PatchOp.replace "/color" t.color.toOpt ∈ ps ∧
      PatchOp.replace "/status" t.status.toOpt ∈ ps ∧
      (truthy t.description.toOpt = true →
        PatchOp.replace "/description" t.description.toOpt ∈ ps) ∧
      (truthy t.description.toOpt = false → PatchOp.remove "/description" ∈ ps) ∧
      (∀ v, PatchOp.replace "/description" v ∈ ps → truthy v = true)) := by
  constructor
  · intro tg ps h
    obtain ⟨h1, h2, h3, h4, hps⟩ := tag_group_patches_ok_inv h
    subst hps
    by_cases hs : truthy tg.shortName.toOpt <;> by_cases hd : truthy tg.description.toOpt <;>
      simp_all
  · intro t ps h
    obtain ⟨h1, h2, h3, hps⟩ := tag_patches_ok_inv h
    subst hps
    by_cases hd : truthy t.description.toOpt <;> simp_all

/-- Patches the group-update witness sends for the Legacy group. -/
def c5ps : List PatchOp :=
  [PatchOp.replace "/mode" (some "OPTIONAL"),
   PatchOp.replace "/restrictToFactSheetTypes" (some "[\"Application\"]"),
   PatchOp.remove "/shortName", PatchOp.remove "/description"]

/-- Patches the tag-update witness sends for tag A. -/
def c5tps : List PatchOp :=
  [PatchOp.remove "/description", PatchOp.replace "/color" (some "red"),
   PatchOp.replace "/status" (some "ACTIVE")]

theorem claim_C5_witness :
    tag_group_patches c2group = Except.ok c5ps ∧ PatchOp.remove "/description" ∈ c5ps ∧
    tag_patches c2tagA = Except.ok c5tps ∧
    PatchOp.replace "/color" (some "red") ∈ c5tps := by
  have h1 : tag_group_patches c2group = Except.ok c5ps := rfl
  have h2 : tag_patches c2tagA = Except.ok c5tps := rfl
  refine ⟨h1, ?_, h2, ?_⟩
  · exact (claim_C5_patch_shapes.1 c2group c5ps h1).2.2.2.2.2.1 rfl
  · exact (claim_C5_patch_shapes.2 c2tagA c5tps h2).1

/-! ### Claim C9: missing keys abort before the update call -/

/-- C9: the group update requires the shortName and description keys to be
present: when one is missing, patch building raises KeyError and the
update aborts with the trace unchanged, so no remote call is issued; the
tag update behaves the same for description.  A present but empty or null
description is not an error: it yields a remove op. -/
theorem claim_C9_missing_keys_fail :
    (∀ (tg : TagGroup) (s : RState),
      tg.shortName = DictVal.absent ∨ tg.description = DictVal.absent →
      tag_group_patches tg = Except.error () ∧
        _update_tag_group tg s = (Except.error (), s)) ∧
    (∀ (t : Tag) (s : RState), t.description = DictVal.absent →
      tag_patches t = Except.error () ∧ _update_tag t s = (Except.error (), s)) ∧
    (∀ tg : TagGroup, tg.shortName ≠ DictVal.absent →
      tg.description = DictVal.null ∨ tg.description = DictVal.val "" →
      tg.mode ≠ DictVal.absent → tg.restrictToFactSheetTypes ≠ DictVal.absent →
      ∃ ps, tag_group_patches tg = Except.ok ps ∧ PatchOp.remove "/description" ∈ ps) := by
  refine ⟨?_, ?_, ?_⟩
  · intro tg s h
    have herr : tag_group_patches tg = Except.error () := by
      rcases h with h | h
      · exact tag_group_patches_shortName_absent tg h
      · exact tag_group_patches_description_absent tg h
    exact ⟨herr, _update_tag_group_patch_error tg s herr⟩
  · intro t s h
    have herr : tag_patches t = Except.error () := tag_patches_description_absent t h
    exact ⟨herr, _update_tag_patch_error t s herr⟩
  · intro tg h1 hd h3 h4
    have h2 : tg.description ≠ DictVal.absent := by
      rcases hd with hd | hd <;> simp [hd]
    refine ⟨_, tag_group_patches_eq tg h1 h2 h3 h4, ?_⟩
    have htr : truthy tg.description.toOpt = false := by
      rcases hd with hd | hd
      · simp [hd, DictVal.toOpt, truthy]
      · simp [hd, DictVal.toOpt, truthy]
        decide
    simp [htr]

/-- A matched real desired group whose dict lacks the description key. -/
def c9group : TagGroup :=
  { id := DictVal.val "g9", name := "NineGroup", mode := DictVal.val "OPTIONAL",
    shortName := DictVal.val "NG", description := DictVal.absent,
    restrictToFactSheetTypes := DictVal.val [], tags := [] }

theorem claim_C9_witness :
    (c9group.shortName = DictVal.absent ∨ c9group.description = DictVal.absent) ∧
    tag_group_patches c9group = Except.error () ∧
    _update_tag_group c9group initState = (Except.error (), initState) := by
  have h := claim_C9_missing_keys_fail.1 c9group initState (Or.inr rfl)
  exact ⟨Or.inr rfl, h.1, h.2⟩

/-! ### Claim C10: first-match-wins name lookup -/

/-- C10: find_by_name returns the earliest element whose name equals the
needle's name, returns none exactly when no element matches, and two
needles with equal names always resolve to the same element. -/
theorem claim_C10_find_by_name_first_match {α : Type} (nameOf : α → String) (n : α)
    (hay : List α) :
    (∀ x, find_by_name nameOf n hay = some x →
      ∃ pre post, hay = pre ++ x :: post ∧ nameOf x = nameOf n ∧
        ∀ y ∈ pre, nameOf y ≠ nameOf n) ∧
    (find_by_name nameOf n hay = none ↔ ∀ y ∈ hay, nameOf y ≠ nameOf n) ∧
    (∀ m, nameOf m = nameOf n → find_by_name nameOf m hay = find_by_name nameOf n hay) :=
  ⟨fun _ h => find_by_name_earliest h, find_by_name_eq_none,
   fun _ hm => find_by_name_congr hm hay⟩

theorem claim_C10_witness :
    find_by_name (fun s => s) "a" ["b", "a", "c"] = some "a" ∧
    (∃ pre post, ["b", "a", "c"] = pre ++ "a" :: post ∧ "a" = "a" ∧
      ∀ y ∈ pre, y ≠ "a") :=
  ⟨rfl, (claim_C10_find_by_name_first_match (fun s => s) "a" ["b", "a", "c"]).1 "a" rfl⟩

/-! ### Claim C8: remote-call failure conditions -/

/-- C8: the GraphQL wrapper raises exactly when the status is an error
status, or the errors field is truthy, or the data payload is not truthy;
on success it returns the data payload itself.  A failing wrapper call
makes the whole fetch fail, so no partial state is returned. -/
theorem claim_C8_exec_graphql_errors (r : HttpResponse) (erase : Bool) :
    (_exec_graphql r = Except.error () ↔
      (is_error_status r.status = true ∨ DictVal.truthyList r.body.errors = true ∨
        DictVal.truthyList r.body.data = false)) ∧
    (_exec_graphql r = Except.error () → _fetch_tag_groups erase r = Except.error ()) ∧
    (∀ d, _exec_graphql r = Except.ok d → r.body.data = DictVal.val d ∧ d ≠ []) := by
  refine ⟨?_, ?_, ?_⟩
  · by_cases hst : is_error_status r.status
    · simp [_exec_graphql, hst]
    · by_cases herr : DictVal.truthyList r.body.errors
      · simp [_exec_graphql, hst, herr]
      · cases hdat : r.body.data with
        | absent => simp [_exec_graphql, hst, herr, hdat, DictVal.truthyList]
        | null => simp [_exec_graphql, hst, herr, hdat, DictVal.truthyList]
        | val l =>
          by_cases hl : l.isEmpty <;>
            simp_all [_exec_graphql, hst, herr, hdat, DictVal.truthyList]
  · intro h
    rw [_fetch_tag_groups, h]
  · intro d h
    by_cases hst : is_error_status r.status
    · simp [_exec_graphql, hst] at h
    · by_cases herr : DictVal.truthyList r.body.errors
      · simp [_exec_graphql, hst, herr] at h
      · cases hdat : r.body.data with
        | absent => simp [_exec_graphql, hst, herr, hdat] at h
        | null => simp [_exec_graphql, hst, herr, hdat] at h
        | val l =>
          by_cases hl : l.isEmpty
          · simp [_exec_graphql, hst, herr, hdat, hl] at h
          · simp only [_exec_graphql, hst, herr, hdat, hl] at h
            simp at h
            subst h
            exact ⟨rfl, by simpa using hl⟩

/-- A response carrying an application error. -/
def c8resp : HttpResponse :=
  { status := 200,
    body := { errors := DictVal.val ["boom"], data := DictVal.absent } }

theorem claim_C8_witness :
    _exec_graphql c8resp = Except.error () ∧
    _fetch_tag_groups false c8resp = Except.error () := by
  have h := claim_C8_exec_graphql_errors c8resp false
  have he : _exec_graphql c8resp = Except.error () := h.1.mpr (Or.inr (Or.inl rfl))
  exact ⟨he, h.2.1 he⟩

/-! ### Claim C3: reconcile of identical states -/

/-- A tag X belonging to the first duplicate-named group. -/
def c3x : Tag :=
  { id := DictVal.val "x1", name := "X", description := DictVal.null,
    color := DictVal.val "red", status := DictVal.val "ACTIVE",
    tagGroupId := DictVal.absent }

/-- A tag Y belonging to the second duplicate-named group. -/
def c3y : Tag :=
  { id := DictVal.val "y1", name := "Y", description := DictVal.null,
    color := DictVal.val "blue", status := DictVal.val "ACTIVE",
    tagGroupId := DictVal.absent }

/-- First of two groups sharing the name Dup. -/
def c3g1 : TagGroup :=
  { id := DictVal.val "g1", name := "Dup", mode := DictVal.val "OPTIONAL",
    shortName := DictVal.null, description := DictVal.null,
    restrictToFactSheetTypes := DictVal.val [], tags := [c3x] }

/-- Second of two groups sharing the name Dup. -/
def c3g2 : TagGroup :=
  { id := DictVal.val "g2", name := "Dup", mode := DictVal.val "OPTIONAL",
    shortName := DictVal.null, description := DictVal.null,
    restrictToFactSheetTypes := DictVal.val [], tags := [c3y] }

/-- A state whose group names are not unique. -/
def c3gs : List TagGroup := [c3g1, c3g2]

/-- The trace of reconciling c3gs against itself: both desired groups
match the first current Dup group, so tag Y is created and tag X deleted
even though desired equals current. -/
def c3state : RState :=
  { calls := [Call.updateTagGroup (some "g1")
                [PatchOp.replace "/mode" (some "OPTIONAL"),
                 PatchOp.replace "/restrictToFactSheetTypes" (some "[]"),
                 PatchOp.remove "/shortName", PatchOp.remove "/description"],
              Call.updateTag (some "x1")
                [PatchOp.remove "/description",
                 PatchOp.replace "/color" (some "red"),
                 PatchOp.replace "/status" (some "ACTIVE")],
              Call.updateTagGroup (some "g1")
                [PatchOp.replace "/mode" (some "OPTIONAL"),
                 PatchOp.replace "/restrictToFactSheetTypes" (some "[]"),
                 PatchOp.remove "/shortName", PatchOp.remove "/description"],
              Call.createTag { id := DictVal.val "y1", name := "Y",
                               description := DictVal.null,
                               color := DictVal.val "blue",
                               status := DictVal.val "ACTIVE",
                               tagGroupId := DictVal.val "g1" },
              Call.deleteTag (some "x1")],
    fresh := 1 }

/-- The desired list after that run. -/
def c3result : List TagGroup :=
  [{ c3g1 with tags := [c3x] },
   { c3g1 with tags := [{ c3y with id := DictVal.val "new0",
                                   tagGroupId := DictVal.val "g1" }] }]

theorem claim_C3_counterexample :
    do_perform cgen c3gs c3gs initState = (Except.ok c3result, c3state) ∧
    c3state.calls.countP isCreateTag = 1 ∧ c3state.calls.countP isDeleteTag = 1 :=
  ⟨rfl, rfl, rfl⟩

/-- Field presence a tag record needs so that its update succeeds and its
id can be adopted. -/
def wfTag (t : Tag) : Prop :=
  t.id ≠ DictVal.absent ∧ t.description ≠ DictVal.absent ∧
    t.color ≠ DictVal.absent ∧ t.status ≠ DictVal.absent

/-- Field presence a group record needs so that reconciling it against
itself succeeds: an id, the patch fields when the group is real, and
well-formed tags. -/
def wfGroup (g : TagGroup) : Prop :=
  g.id ≠ DictVal.absent ∧
    (is_real_tag_group g = true →
      g.mode ≠ DictVal.absent ∧ g.shortName ≠ DictVal.absent ∧
        g.description ≠ DictVal.absent ∧ g.restrictToFactSheetTypes ≠ DictVal.absent) ∧
    ∀ t ∈ g.tags, wfTag t

instance (t : Tag) : Decidable (wfTag t) := by
  unfold wfTag
  infer_instance

instance (g : TagGroup) : Decidable (wfGroup g) := by
  unfold wfGroup
  infer_instance

theorem DictVal.ofOpt_toOpt {α : Type} {f : DictVal α} (h : f ≠ DictVal.absent) :
    DictVal.ofOpt f.toOpt = f := by
  cases f <;> simp_all [DictVal.ofOpt, DictVal.toOpt]

theorem find_by_name_self {α : Type} (nameOf : α → String) :
    ∀ {l : List α} {x : α}, (l.map nameOf).Nodup → x ∈ l →
      find_by_name nameOf x l = some x := by
  intro l
  induction l with
  | nil => intro x _ hx; simp at hx
  | cons c rest ih =>
    intro x hnd hx
    rcases List.mem_cons.mp hx with hxc | hxr
    · subst hxc
      simp [find_by_name]
    · have hne : nameOf x ≠ nameOf c := by
        intro heq
        have hc : nameOf c ∈ rest.map nameOf := heq ▸ List.mem_map.mpr ⟨x, hxr, rfl⟩
        exact (List.nodup_cons.mp (by simpa using hnd)).1 hc
      rw [find_by_name, if_neg hne]
      exact ih (List.nodup_cons.mp (by simpa using hnd)).2 hxr

theorem restore_desired_tags_matched (gen : Nat → String) (gid : Option String)
    (cs : List Tag) (hcs : ∀ c ∈ cs, c.id ≠ DictVal.absent) :
    ∀ (ds : List Tag) (s : RState),
    (∀ d ∈ ds, (find_by_name Tag.name d cs).isSome = true ∧
      d.description ≠ DictVal.absent ∧ d.color ≠ DictVal.absent ∧
      d.status ≠ DictVal.absent) →
    ∃ ds1 added, restore_desired_tags gen gid cs ds s =
        (Except.ok ds1, { calls := s.calls ++ added, fresh := s.fresh }) ∧
      (∀ c ∈ added, isUpdateTag c = true) ∧ added.countP isUpdateTag = ds.length ∧
      ds1.map Tag.name = ds.map Tag.name := by
  intro ds
  induction ds with
  | nil =>
    intro s _
    exact ⟨[], [], by simp [restore_desired_tags], by simp, by simp, by simp⟩
  | cons d ds ih =>
    intro s h
    obtain ⟨hfind, hdesc, hcol, hstat⟩ := h d (List.mem_cons_self d ds)
    obtain ⟨c, hc⟩ := Option.isSome_iff_exists.mp hfind
    have hcid : c.id ≠ DictVal.absent := hcs c (find_by_name_mem hc)
    obtain ⟨ps, hps⟩ : ∃ ps, tag_patches { d with id := DictVal.ofOpt c.id.toOpt } =
        Except.ok ps := ⟨_, tag_patches_eq _ hdesc hcol hstat⟩
    have hupd := _update_tag_ok { d with id := DictVal.ofOpt c.id.toOpt } s c.id.toOpt ps
      (DictVal.lookup_ofOpt _) hps
    obtain ⟨ds1, added, hrec, hall, hcount, hnames⟩ :=
      ih { s with calls := s.calls ++ [Call.updateTag c.id.toOpt ps] }
        (fun d2 hd2 => h d2 (List.mem_cons_of_mem _ hd2))
    refine ⟨{ d with id := DictVal.ofOpt c.id.toOpt } :: ds1,
      Call.updateTag c.id.toOpt ps :: added, ?_, ?_, ?_, ?_⟩
    · simp only [restore_desired_tags, hc, DictVal.lookup_ne_absent hcid, andThen_ok,
        hupd, hrec]
      simp
    · intro c2 hc2
      rcases List.mem_cons.mp hc2 with h2 | h2
      · simp [h2, isUpdateTag]
      · exact hall c2 h2
    · simp [List.countP_cons, hcount, isUpdateTag]
    · simp [hnames]

theorem delete_unmatched_tags_allmatched (ds : List Tag) :
    ∀ (cs : List Tag), (∀ c ∈ cs, (find_by_name Tag.name c ds).isSome = true) →
    ∀ s, delete_unmatched_tags ds cs s = (Except.ok (), s) := by
  intro cs
  induction cs with
  | nil => intro _ s; rw [delete_unmatched_tags]
  | cons c cs ih =>
    intro h s
    rw [delete_unmatched_tags]
    show andThen
      (if (find_by_name Tag.name c ds).isSome = true then (Except.ok (), s)
       else _delete_tag c s) _ = _
    rw [if_pos (h c (List.mem_cons_self c cs)), andThen_ok]
    exact ih (fun c2 hc2 => h c2 (List.mem_cons_of_mem _ hc2)) s

theorem _restore_tags_self (gen : Nat → String) (gid : Option String) (ts : List Tag)
    (hwf : ∀ t ∈ ts, wfTag t) (s : RState) :
    ∃ ts1 added, _restore_tags gen gid ts ts s =
        (Except.ok ts1, { calls := s.calls ++ added, fresh := s.fresh }) ∧
      (∀ c ∈ added, isUpdateTag c = true) ∧ added.countP isUpdateTag = ts.length := by
  obtain ⟨ts1, added, hrec, hall, hcount, hnames⟩ :=
    restore_desired_tags_matched gen gid ts (fun c hc => (hwf c hc).1) ts s
      (fun d hd => ⟨find_by_name_isSome_iff.mpr ⟨d, hd, rfl⟩, (hwf d hd).2.1,
        (hwf d hd).2.2.1, (hwf d hd).2.2.2⟩)
  have hdel : ∀ s2, delete_unmatched_tags ts1 ts s2 = (Except.ok (), s2) := by
    apply delete_unmatched_tags_allmatched
    intro c hc
    apply find_by_name_isSome_iff.mpr
    have : c.name ∈ ts1.map Tag.name := by
      rw [hnames]
      exact List.mem_map.mpr ⟨c, hc, rfl⟩
    obtain ⟨y, hy, hyn⟩ := List.mem_map.mp this
    exact ⟨y, hy, hyn⟩
  refine ⟨ts1, added, ?_, hall, hcount⟩
  simp only [_restore_tags, hrec, andThen_ok, hdel, andThen_ok]

theorem process_group_self (gen : Nat → String) (current : List TagGroup)
    (g : TagGroup) (s : RState)
    (hfind : find_by_name TagGroup.name g current = some g) (hwf : wfGroup g) :
    ∃ g1 added, process_desired_group gen current g s =
        (Except.ok g1, { calls := s.calls ++ added, fresh := s.fresh }) ∧
      g1.name = g.name ∧
      (∀ c ∈ added, isUpdateGroup c = true ∨ isUpdateTag c = true) ∧
      added.countP isUpdateGroup = (if is_real_tag_group g then 1 else 0) ∧
      added.countP isUpdateTag = g.tags.length := by
  obtain ⟨hid, hpatch, htags⟩ := hwf
  by_cases hr : is_real_tag_group g
  · obtain ⟨hm, hsn, hde, hrf⟩ := hpatch hr
    obtain ⟨ps, hps⟩ :
        ∃ ps, tag_group_patches { g with id := DictVal.ofOpt g.id.toOpt } = Except.ok ps :=
      ⟨_, tag_group_patches_eq _ hsn hde hm hrf⟩
    have hupd := _update_tag_group_ok { g with id := DictVal.ofOpt g.id.toOpt } s
      g.id.toOpt ps (DictVal.lookup_ofOpt _) hps
    obtain ⟨ts1, added, hrt, hall, hcount⟩ := _restore_tags_self gen g.id.toOpt g.tags htags
      { s with calls := s.calls ++ [Call.updateTagGroup g.id.toOpt ps] }
    have hr1 : is_real_tag_group { g with id := DictVal.ofOpt g.id.toOpt } = true := hr
    refine ⟨{ g with id := DictVal.ofOpt g.id.toOpt, tags := ts1 },
      Call.updateTagGroup g.id.toOpt ps :: added, ?_, rfl, ?_, ?_, ?_⟩
    · simp only [process_desired_group, hfind, DictVal.lookup_ne_absent hid, andThen_ok,
        hr1, if_true, hupd, DictVal.lookup_ofOpt, hrt]
      simp
    · intro c hc
      rcases List.mem_cons.mp hc with h2 | h2
      · simp [h2, isUpdateGroup]
      · exact Or.inr (hall c h2)
    · have hz : added.countP isUpdateGroup = 0 := by
        rw [List.countP_eq_zero]
        intro c hc
        have := hall c hc
        cases c <;> simp_all [isUpdateTag, isUpdateGroup]
      simp [List.countP_cons, hz, isUpdateGroup, hr]
    · have : (Call.updateTagGroup g.id.toOpt ps :: added).countP isUpdateTag =
          added.countP isUpdateTag := by
        simp [List.countP_cons, isUpdateTag]
      rw [this, hcount]
  · obtain ⟨ts1, added, hrt, hall, hcount⟩ := _restore_tags_self gen g.id.toOpt g.tags htags s
    have hr0 : is_real_tag_group g = false := by simpa using hr
    have hr1 : is_real_tag_group { g with id := DictVal.ofOpt g.id.toOpt } = false := hr0
    refine ⟨{ g with id := DictVal.ofOpt g.id.toOpt, tags := ts1 }, added, ?_, rfl,
      fun c hc => Or.inr (hall c hc), ?_, hcount⟩
    · simp only [process_desired_group, hfind, DictVal.lookup_ne_absent hid, andThen_ok,
        hr1, if_false, Bool.false_eq_true, DictVal.lookup_ofOpt, hrt]
    · have hz : added.countP isUpdateGroup = 0 := by
        rw [List.countP_eq_zero]
        intro c hc
        have := hall c hc
        cases c <;> simp_all [isUpdateTag, isUpdateGroup]
      simp [hz, hr0]

theorem process_groups_self (gen : Nat → String) (current : List TagGroup) :
    ∀ (ds : List TagGroup) (s : RState),
    (∀ d ∈ ds, find_by_name TagGroup.name d current = some d ∧ wfGroup d) →
    ∃ ds1 added, process_desired_groups gen current ds s =
        (Except.ok ds1, { calls := s.calls ++ added, fresh := s.fresh }) ∧
      (∀ c ∈ added, isUpdateGroup c = true ∨ isUpdateTag c = true) ∧
      added.countP isUpdateGroup = (ds.filter fun g => is_real_tag_group g).length ∧
      added.countP isUpdateTag = (ds.map fun g => g.tags.length).sum ∧
      ds1.map TagGroup.name = ds.map TagGroup.name := by
  intro ds
  induction ds with
  | nil =>
    intro s _
    exact ⟨[], [], by simp [process_desired_groups], by simp, by simp, by simp, by simp⟩
  | cons d ds ih =>
    intro s h
    obtain ⟨hfind, hwfd⟩ := h d (List.mem_cons_self d ds)
    obtain ⟨g1, added1, hpg, hname, hall1, hug1, hut1⟩ :=
      process_group_self gen current d s hfind hwfd
    obtain ⟨ds1, added2, hrest, hall2, hug2, hut2, hnames⟩ :=
      ih { calls := s.calls ++ added1, fresh := s.fresh }
        (fun d2 hd2 => h d2 (List.mem_cons_of_mem _ hd2))
    refine ⟨g1 :: ds1, added1 ++ added2, ?_, ?_, ?_, ?_, ?_⟩
    · simp only [process_desired_groups, hpg, andThen_ok, hrest]
      simp
    · intro c hc
      rcases List.mem_append.mp hc with h2 | h2
      · exact hall1 c h2
      · exact hall2 c h2
    · rw [List.countP_append, hug1, hug2]
      by_cases hr : is_real_tag_group d <;> simp [hr, Nat.add_comm]
    · rw [List.countP_append, hut1, hut2]
      simp [Nat.add_comm]
    · simp [hname, hnames]

theorem delete_unmatched_groups_allmatched (ds : List TagGroup) :
    ∀ (cs : List TagGroup),
    (∀ c ∈ cs, (find_by_name TagGroup.name c ds).isSome = true) →
    ∀ s, delete_unmatched_groups ds cs s = (Except.ok (), s) := by
  intro cs
  induction cs with
  | nil => intro _ s; rw [delete_unmatched_groups]
  | cons c cs ih =>
    intro h s
    rw [delete_unmatched_groups]
    show andThen
      (if (find_by_name TagGroup.name c ds).isSome = true then (Except.ok (), s)
       else _) _ = _
    rw [if_pos (h c (List.mem_cons_self c cs)), andThen_ok]
    exact ih (fun c2 hc2 => h c2 (List.mem_cons_of_mem _ hc2)) s

theorem update_only_not_createGroup {c : Call}
    (h : isUpdateGroup c = true ∨ isUpdateTag c = true) : isCreateGroup c = false := by
  rcases h with h | h <;> cases c <;> simp_all [isUpdateGroup, isUpdateTag, isCreateGroup]

theorem update_only_not_deleteGroup {c : Call}
    (h : isUpdateGroup c = true ∨ isUpdateTag c = true) : isDeleteGroup c = false := by
  rcases h with h | h <;> cases c <;> simp_all [isUpdateGroup, isUpdateTag, isDeleteGroup]

theorem update_only_not_createTag {c : Call}
    (h : isUpdateGroup c = true ∨ isUpdateTag c = true) : isCreateTag c = false := by
  rcases h with h | h <;> cases c <;> simp_all [isUpdateGroup, isUpdateTag, isCreateTag]

theorem update_only_not_deleteTag {c : Call}
    (h : isUpdateGroup c = true ∨ isUpdateTag c = true) : isDeleteTag c = false := by
  rcases h with h | h <;> cases c <;> simp_all [isUpdateGroup, isUpdateTag, isDeleteTag]

/-- C3 (amended): when desired equals current and the group names are
unique, as the fetched-state invariant provides, reconcile issues zero
create and zero delete calls for groups and for tags, while every matched
real group and every matched tag still issues one update call regardless
of value equality. -/
theorem claim_C3_idempotent_reconcile_updates_only (gen : Nat → String)
    (gs : List TagGroup) (hnd : (gs.map TagGroup.name).Nodup)
    (hwf : ∀ g ∈ gs, wfGroup g) :
    ∃ ds st, do_perform gen gs gs initState = (Except.ok ds, st) ∧
      st.calls.countP isCreateGroup = 0 ∧ st.calls.countP isDeleteGroup = 0 ∧
      st.calls.countP isCreateTag = 0 ∧ st.calls.countP isDeleteTag = 0 ∧
      st.calls.countP isUpdateGroup = (gs.filter fun g => is_real_tag_group g).length ∧
      st.calls.countP isUpdateTag = (gs.map fun g => g.tags.length).sum := by
  obtain ⟨ds1, added, hproc, hall, hug, hut, hnames⟩ :=
    process_groups_self gen gs gs initState
      (fun d hd => ⟨find_by_name_self TagGroup.name hnd hd, hwf d hd⟩)
  have hdel : ∀ s2, delete_unmatched_groups ds1 gs s2 = (Except.ok (), s2) := by
    apply delete_unmatched_groups_allmatched
    intro c hc
    apply find_by_name_isSome_iff.mpr
    have : c.name ∈ ds1.map TagGroup.name := by
      rw [hnames]
      exact List.mem_map.mpr ⟨c, hc, rfl⟩
    obtain ⟨y, hy, hyn⟩ := List.mem_map.mp this
    exact ⟨y, hy, hyn⟩
  have hzero : ∀ p : Call → Bool, (∀ c, (isUpdateGroup c = true ∨ isUpdateTag c = true) →
      p c = false) → added.countP p = 0 := by
    intro p hp
    rw [List.countP_eq_zero]
    intro c hc
    rw [hp c (hall c hc)]
    simp
  refine ⟨ds1, { calls := added, fresh := 0 }, ?_, ?_, ?_, ?_, ?_, ?_, ?_⟩
  · simp only [do_perform, hproc, andThen_ok, hdel]
    simp [initState]
  · exact hzero isCreateGroup fun c hc => update_only_not_createGroup hc
  · exact hzero isDeleteGroup fun c hc => update_only_not_deleteGroup hc
  · exact hzero isCreateTag fun c hc => update_only_not_createTag hc
  · exact hzero isDeleteTag fun c hc => update_only_not_deleteTag hc
  · exact hug
  · exact hut

theorem claim_C3_witness :
    ([c2group].map TagGroup.name).Nodup ∧ (∀ g ∈ [c2group], wfGroup g) ∧
    (∃ ds st, do_perform cgen [c2group] [c2group] initState = (Except.ok ds, st) ∧
      st.calls.countP isCreateGroup = 0 ∧ st.calls.countP isDeleteGroup = 0 ∧
      st.calls.countP isCreateTag = 0 ∧ st.calls.countP isDeleteTag = 0 ∧
      st.calls.countP isUpdateGroup =
        ([c2group].filter fun g => is_real_tag_group g).length ∧
      st.calls.countP isUpdateTag = ([c2group].map fun g => g.tags.length).sum) :=
  ⟨by decide, by decide,
   claim_C3_idempotent_reconcile_updates_only cgen [c2group] (by decide) (by decide)⟩

/-! ### Dictionary lemmas for the fetch normalization -/

/-- Tags currently stored under a key, defaulting to the empty list as
lookup.get(name, dict with empty tags) does. -/
def dictGetTags (k : String) (acc : List (String × TagGroup)) : List Tag :=
  match dictGet k acc with
  | some g => g.tags
  | none => []

theorem dictGet_insert_self {β : Type} (k : String) (v : β) :
    ∀ acc : List (String × β), dictGet k (dictInsert k v acc) = some v := by
  intro acc
  induction acc with
  | nil => simp [dictGet, dictInsert]
  | cons p rest ih =>
    obtain ⟨k1, v1⟩ := p
    by_cases hk : k1 = k
    · simp [dictGet, dictInsert, hk]
    · simp [dictGet, dictInsert, hk, ih]

theorem dictGet_insert_ne {β : Type} {k k2 : String} (v : β) (h : k2 ≠ k) :
    ∀ acc : List (String × β), dictGet k2 (dictInsert k v acc) = dictGet k2 acc := by
  intro acc
  induction acc with
  | nil =>
    simp only [dictInsert, dictGet]
    rw [if_neg (fun hh : k = k2 => h hh.symm)]
  | cons p rest ih =>
    obtain ⟨k1, v1⟩ := p
    by_cases hk : k1 = k
    · rw [dictInsert, if_pos hk, dictGet, dictGet,
        if_neg (fun hh : k1 = k2 => h (hk ▸ hh).symm),
        if_neg (fun hh : k1 = k2 => h (hk ▸ hh).symm)]
    · rw [dictInsert, if_neg hk, dictGet, dictGet]
      by_cases hk2 : k1 = k2
      · rw [if_pos hk2, if_pos hk2]
      · rw [if_neg hk2, if_neg hk2, ih]

theorem mem_dictInsert {β : Type} {p : String × β} {k : String} {v : β} :
    ∀ {acc : List (String × β)}, p ∈ dictInsert k v acc → p = (k, v) ∨ p ∈ acc := by
  intro acc
  induction acc with
  | nil => intro h; simp [dictInsert] at h; exact Or.inl h
  | cons q rest ih =>
    obtain ⟨k1, v1⟩ := q
    intro h
    by_cases hk : k1 = k
    · subst hk
      simp only [dictInsert, if_pos rfl] at h
      rcases List.mem_cons.mp h with h1 | h1
      · exact Or.inl h1
      · exact Or.inr (List.mem_cons_of_mem _ h1)
    · simp only [dictInsert, if_neg hk] at h
      rcases List.mem_cons.mp h with h1 | h1
      · exact Or.inr (h1 ▸ List.mem_cons_self _ _)
      · rcases ih h1 with h2 | h2
        · exact Or.inl h2
        · exact Or.inr (List.mem_cons_of_mem _ h2)

theorem keys_dictInsert {β : Type} (k : String) (v : β) :
    ∀ acc : List (String × β),
    (dictInsert k v acc).map Prod.fst =
      if k ∈ acc.map Prod.fst then acc.map Prod.fst else acc.map Prod.fst ++ [k] := by
  intro acc
  induction acc with
  | nil => simp [dictInsert]
  | cons q rest ih =>
    obtain ⟨k1, v1⟩ := q
    by_cases hk : k1 = k
    · subst hk
      simp [dictInsert]
    · have hne : ¬k = k1 := fun h => hk h.symm
      by_cases hmem : k ∈ rest.map Prod.fst <;>
        simp [dictInsert, hk, hne, hmem, ih]

theorem keys_nodup_dictInsert {β : Type} {k : String} {v : β}
    {acc : List (String × β)} (h : (acc.map Prod.fst).Nodup) :
    ((dictInsert k v acc).map Prod.fst).Nodup := by
  rw [keys_dictInsert]
  by_cases hmem : k ∈ acc.map Prod.fst
  · simpa [hmem] using h
  · rw [if_neg hmem, List.nodup_append]
    refine ⟨h, List.nodup_singleton k, ?_⟩
    intro a ha hb
    simp at hb
    subst hb
    exact hmem ha

/-! ### Multiset preservation through the lookup dictionary -/

/-- All tags stored in the lookup dictionary, in storage order. -/
def flatTags (lk : List (String × TagGroup)) : List Tag :=
  lk.flatMap fun p => p.2.tags

theorem flatTags_dictInsert {k : String} {g : TagGroup} {ts : List Tag} :
    ∀ {acc : List (String × TagGroup)},
    List.Perm g.tags (dictGetTags k acc ++ ts) →
    List.Perm (flatTags (dictInsert k g acc)) (flatTags acc ++ ts) := by
  intro acc
  induction acc with
  | nil =>
    intro hperm
    simpa [flatTags, dictInsert, dictGetTags, dictGet] using hperm
  | cons p rest ih =>
    obtain ⟨k1, v1⟩ := p
    intro hperm
    by_cases hk : k1 = k
    · have hget : dictGetTags k ((k1, v1) :: rest) = v1.tags := by
        simp [dictGetTags, dictGet, hk]
      rw [hget] at hperm
      have hins : dictInsert k g ((k1, v1) :: rest) = (k1, g) :: rest := by
        simp [dictInsert, hk]
      rw [hins]
      show List.Perm (g.tags ++ flatTags rest) ((v1.tags ++ flatTags rest) ++ ts)
      refine List.Perm.trans (hperm.append_right (flatTags rest)) ?_
      rw [List.append_assoc, List.append_assoc]
      exact List.Perm.append_left v1.tags List.perm_append_comm
    · have hget : dictGetTags k ((k1, v1) :: rest) = dictGetTags k rest := by
        simp [dictGetTags, dictGet, hk]
      rw [hget] at hperm
      have hins : dictInsert k g ((k1, v1) :: rest) = (k1, v1) :: dictInsert k g rest := by
        simp [dictInsert, hk]
      rw [hins]
      show List.Perm (v1.tags ++ flatTags (dictInsert k g rest))
        ((v1.tags ++ flatTags rest) ++ ts)
      rw [List.append_assoc]
      exact List.Perm.append_left v1.tags (ih hperm)

/-! ### Characterizing one fetch step -/

theorem DictVal.del_ok {α : Type} {f x : DictVal α} (h : f.del = Except.ok x) :
    x = DictVal.absent := by
  cases f <;> simp_all [DictVal.del]

/-- The group record one edge stores into the lookup dictionary. -/
def insertedGroup (erase : Bool) (tn : TagNode) (acc : List (String × TagGroup)) :
    TagGroup :=
  { id := if erase then DictVal.absent else (edgeGroup tn).id
    name := (edgeGroup tn).name
    mode := (edgeGroup tn).mode
    shortName := (edgeGroup tn).shortName
    description := (edgeGroup tn).description
    restrictToFactSheetTypes := (edgeGroup tn).restrictToFactSheetTypes
    tags := sortTags (dictGetTags (edgeGroup tn).name acc ++ [processTag erase tn]) }

theorem fetchStep_ok_inv {erase : Bool} {acc : List (String × TagGroup)} {tn : TagNode}
    {acc1 : List (String × TagGroup)} (h : fetchStep erase acc tn = Except.ok acc1) :
    acc1 = dictInsert (edgeGroup tn).name (insertedGroup erase tn acc) acc := by
  cases erase
  · simp only [fetchStep, Bool.false_eq_true, if_false, Except.ok.injEq] at h
    rw [← h]
    simp [insertedGroup, dictGetTags, processTag]
  · cases hdt : tn.id.del with
    | error e => simp [fetchStep, hdt] at h
    | ok ti =>
      cases hdg : (edgeGroup tn).id.del with
      | error e => simp [fetchStep, hdt, hdg] at h
      | ok gi =>
        have hti := DictVal.del_ok hdt
        have hgi := DictVal.del_ok hdg
        subst hti
        subst hgi
        simp only [fetchStep, if_true, hdt, hdg, Except.ok.injEq] at h
        rw [← h]
        simp [insertedGroup, dictGetTags, processTag]

/-! ### Invariants through the edge loop -/

theorem buildLookup_perm {erase : Bool} : ∀ {es : List TagNode}
    {acc lk : List (String × TagGroup)}, buildLookup erase es acc = Except.ok lk →
    List.Perm (flatTags lk) (flatTags acc ++ es.map (processTag erase)) := by
  intro es
  induction es with
  | nil =>
    intro acc lk h
    rw [buildLookup] at h
    cases h
    simp
  | cons e es ih =>
    intro acc lk h
    rw [buildLookup] at h
    cases hstep : fetchStep erase acc e with
    | error err => rw [hstep] at h; cases h
    | ok acc1 =>
      rw [hstep] at h
      have hacc1 : List.Perm (flatTags acc1) (flatTags acc ++ [processTag erase e]) := by
        rw [fetchStep_ok_inv hstep]
        apply flatTags_dictInsert
        exact List.perm_insertionSort tagNameLe _
      refine List.Perm.trans (ih h) ?_
      refine List.Perm.trans (hacc1.append_right (es.map (processTag erase))) ?_
      rw [List.append_assoc]
      simp

theorem buildLookup_tags_sorted {erase : Bool} : ∀ {es : List TagNode}
    {acc lk : List (String × TagGroup)}, buildLookup erase es acc = Except.ok lk →
    (∀ p ∈ acc, List.Sorted tagNameLe p.2.tags) →
    ∀ p ∈ lk, List.Sorted tagNameLe p.2.tags := by
  intro es
  induction es with
  | nil =>
    intro acc lk h hacc
    rw [buildLookup] at h
    cases h
    exact hacc
  | cons e es ih =>
    intro acc lk h hacc
    rw [buildLookup] at h
    cases hstep : fetchStep erase acc e with
    | error err => rw [hstep] at h; cases h
    | ok acc1 =>
      rw [hstep] at h
      refine ih h ?_
      intro p hp
      rw [fetchStep_ok_inv hstep] at hp
      rcases mem_dictInsert hp with h1 | h1
      · rw [h1]
        exact List.sorted_insertionSort tagNameLe _
      · exact hacc p h1

theorem buildLookup_names {erase : Bool} : ∀ {es : List TagNode}
    {acc lk : List (String × TagGroup)}, buildLookup erase es acc = Except.ok lk →
    (∀ p ∈ acc, p.2.name = p.1) → ∀ p ∈ lk, p.2.name = p.1 := by
  intro es
  induction es with
  | nil =>
    intro acc lk h hacc
    rw [buildLookup] at h
    cases h
    exact hacc
  | cons e es ih =>
    intro acc lk h hacc
    rw [buildLookup] at h
    cases hstep : fetchStep erase acc e with
    | error err => rw [hstep] at h; cases h
    | ok acc1 =>
      rw [hstep] at h
      refine ih h ?_
      intro p hp
      rw [fetchStep_ok_inv hstep] at hp
      rcases mem_dictInsert hp with h1 | h1
      · rw [h1]
        rfl
      · exact hacc p h1

theorem buildLookup_keys_nodup {erase : Bool} : ∀ {es : List TagNode}
    {acc lk : List (String × TagGroup)}, buildLookup erase es acc = Except.ok lk →
    (acc.map Prod.fst).Nodup → (lk.map Prod.fst).Nodup := by
  intro es
  induction es with
  | nil =>
    intro acc lk h hacc
    rw [buildLookup] at h
    cases h
    exact hacc
  | cons e es ih =>
    intro acc lk h hacc
    rw [buildLookup] at h
    cases hstep : fetchStep erase acc e with
    | error err => rw [hstep] at h; cases h
    | ok acc1 =>
      rw [hstep] at h
      refine ih h ?_
      rw [fetchStep_ok_inv hstep]
      exact keys_nodup_dictInsert hacc

theorem dictGet_mem {β : Type} {k : String} {v : β} :
    ∀ {acc : List (String × β)}, dictGet k acc = some v → (k, v) ∈ acc := by
  intro acc
  induction acc with
  | nil => intro h; simp [dictGet] at h
  | cons p rest ih =>
    obtain ⟨k1, v1⟩ := p
    intro h
    by_cases hk : k1 = k
    · subst hk
      rw [dictGet, if_pos rfl] at h
      cases h
      exact List.mem_cons_self _ _
    · rw [dictGet, if_neg hk] at h
      exact List.mem_cons_of_mem _ (ih h)

theorem nodup_keys_inj {β : Type} : ∀ {lk : List (String × β)},
    (lk.map Prod.fst).Nodup → ∀ {p1 p2 : String × β}, p1 ∈ lk → p2 ∈ lk →
    p1.1 = p2.1 → p1 = p2 := by
  intro lk
  induction lk with
  | nil => intro _ p1 p2 h1; simp at h1
  | cons q rest ih =>
    intro hnd p1 p2 h1 h2 hk
    have hq : q.1 ∉ rest.map Prod.fst := (List.nodup_cons.mp (by simpa using hnd)).1
    rcases List.mem_cons.mp h1 with e1 | e1 <;> rcases List.mem_cons.mp h2 with e2 | e2
    · rw [e1, e2]
    · exact absurd (List.mem_map.mpr ⟨p2, e2, (hk ▸ e1 ▸ rfl : p2.1 = q.1)⟩) hq
    · exact absurd (List.mem_map.mpr ⟨p1, e1, (e2 ▸ hk : p1.1 = q.1)⟩) hq
    · exact ih (List.nodup_cons.mp (by simpa using hnd)).2 e1 e2 hk

theorem buildLookup_tags_mono {erase : Bool} : ∀ {es : List TagNode}
    {acc lk : List (String × TagGroup)}, buildLookup erase es acc = Except.ok lk →
    ∀ k t, t ∈ dictGetTags k acc → t ∈ dictGetTags k lk := by
  intro es
  induction es with
  | nil =>
    intro acc lk h k t ht
    rw [buildLookup] at h
    cases h
    exact ht
  | cons e es ih =>
    intro acc lk h k t ht
    rw [buildLookup] at h
    cases hstep : fetchStep erase acc e with
    | error err => rw [hstep] at h; cases h
    | ok acc1 =>
      rw [hstep] at h
      refine ih h k t ?_
      rw [fetchStep_ok_inv hstep]
      by_cases hk : k = (edgeGroup e).name
      · subst hk
        rw [dictGetTags, dictGet_insert_self]
        refine (List.Perm.mem_iff (List.perm_insertionSort tagNameLe _)).mpr ?_
        exact List.mem_append.mpr (Or.inl ht)
      · rw [dictGetTags, dictGet_insert_ne _ hk]
        exact ht

theorem buildLookup_null_under_sentinel {erase : Bool} : ∀ {es : List TagNode}
    {acc lk : List (String × TagGroup)}, buildLookup erase es acc = Except.ok lk →
    ∀ e ∈ es, e.tagGroup = none →
    processTag erase e ∈ dictGetTags OTHER_TAGS.name lk := by
  intro es
  induction es with
  | nil => intro acc lk _ e he; simp at he
  | cons e0 es ih =>
    intro acc lk h e he hnull
    rw [buildLookup] at h
    cases hstep : fetchStep erase acc e0 with
    | error err => rw [hstep] at h; cases h
    | ok acc1 =>
      rw [hstep] at h
      rcases List.mem_cons.mp he with he0 | hes
      · subst he0
        have hgrp : edgeGroup e = OTHER_TAGS := by rw [edgeGroup, hnull]; rfl
        refine buildLookup_tags_mono h OTHER_TAGS.name _ ?_
        rw [fetchStep_ok_inv hstep, hgrp]
        rw [dictGetTags]
        rw [show (OTHER_TAGS.name : String) = (edgeGroup e).name from by rw [hgrp]]
        rw [hgrp, dictGet_insert_self]
        refine (List.Perm.mem_iff (List.perm_insertionSort tagNameLe _)).mpr ?_
        exact List.mem_append.mpr (Or.inr (by simp))
      · exact ih h e hes hnull

theorem buildLookup_sentinel_id {erase : Bool} : ∀ {es : List TagNode}
    {acc lk : List (String × TagGroup)}, buildLookup erase es acc = Except.ok lk →
    (∀ e ∈ es, ∀ gn, e.tagGroup = some gn → gn.name ≠ OTHER_TAGS.name) →
    (∀ p ∈ acc, p.1 = OTHER_TAGS.name →
      p.2.id = DictVal.absent ∨ p.2.id = DictVal.null) →
    ∀ p ∈ lk, p.1 = OTHER_TAGS.name →
      p.2.id = DictVal.absent ∨ p.2.id = DictVal.null := by
  intro es
  induction es with
  | nil =>
    intro acc lk h _ hacc
    rw [buildLookup] at h
    cases h
    exact hacc
  | cons e es ih =>
    intro acc lk h hnc hacc
    rw [buildLookup] at h
    cases hstep : fetchStep erase acc e with
    | error err => rw [hstep] at h; cases h
    | ok acc1 =>
      rw [hstep] at h
      refine ih h (fun e2 he2 => hnc e2 (List.mem_cons_of_mem _ he2)) ?_
      intro p hp hpname
      rw [fetchStep_ok_inv hstep] at hp
      rcases mem_dictInsert hp with h1 | h1
      · have hgrp : edgeGroup e = OTHER_TAGS := by
          cases hg : e.tagGroup with
          | none => rw [edgeGroup, hg]; rfl
          | some gn =>
            have : (edgeGroup e).name = OTHER_TAGS.name := by
              rw [← (show p.1 = (edgeGroup e).name from by rw [h1])]
              exact hpname
            rw [edgeGroup, hg] at this
            exact absurd this (hnc e (List.mem_cons_self _ _) gn hg)
        have : p.2 = insertedGroup erase e acc := by rw [h1]
        rw [this, insertedGroup, hgrp]
        cases erase
        · exact Or.inr rfl
        · exact Or.inl rfl
      · exact hacc p h1 hpname

theorem buildLookup_erased_ids : ∀ {es : List TagNode}
    {acc lk : List (String × TagGroup)}, buildLookup true es acc = Except.ok lk →
    (∀ p ∈ acc, p.2.id = DictVal.absent ∧ ∀ t ∈ p.2.tags, t.id = DictVal.absent) →
    ∀ p ∈ lk, p.2.id = DictVal.absent ∧ ∀ t ∈ p.2.tags, t.id = DictVal.absent := by
  intro es
  induction es with
  | nil =>
    intro acc lk h hacc
    rw [buildLookup] at h
    cases h
    exact hacc
  | cons e es ih =>
    intro acc lk h hacc
    rw [buildLookup] at h
    cases hstep : fetchStep true acc e with
    | error err => rw [hstep] at h; cases h
    | ok acc1 =>
      rw [hstep] at h
      refine ih h ?_
      intro p hp
      rw [fetchStep_ok_inv hstep] at hp
      rcases mem_dictInsert hp with h1 | h1
      · have hpe : p.2 = insertedGroup true e acc := by rw [h1]
        rw [hpe, insertedGroup]
        refine ⟨rfl, ?_⟩
        intro t ht
        have ht2 := (List.Perm.mem_iff (List.perm_insertionSort tagNameLe _)).mp ht
        rcases List.mem_append.mp ht2 with h2 | h2
        · rw [dictGetTags] at h2
          cases hget : dictGet (edgeGroup e).name acc with
          | none => rw [hget] at h2; simp at h2
          | some g0 =>
            rw [hget] at h2
            exact (hacc _ (dictGet_mem hget)).2 t h2
        · simp at h2
          rw [h2]
          rfl
      · exact hacc p h1

theorem buildLookup_group_ids_from : ∀ {es : List TagNode}
    {acc lk : List (String × TagGroup)}, buildLookup false es acc = Except.ok lk →
    ∀ p ∈ lk, p ∈ acc ∨
      ∃ e ∈ es, (edgeGroup e).name = p.1 ∧ p.2.id = (edgeGroup e).id := by
  intro es
  induction es with
  | nil =>
    intro acc lk h p hp
    rw [buildLookup] at h
    cases h
    exact Or.inl hp
  | cons e es ih =>
    intro acc lk h p hp
    rw [buildLookup] at h
    cases hstep : fetchStep false acc e with
    | error err => rw [hstep] at h; cases h
    | ok acc1 =>
      rw [hstep] at h
      rcases ih h p hp with h1 | ⟨e2, he2, hn, hi⟩
      · rw [fetchStep_ok_inv hstep] at h1
        rcases mem_dictInsert h1 with h2 | h2
        · refine Or.inr ⟨e, List.mem_cons_self _ _, ?_, ?_⟩
          · rw [h2]
          · rw [h2]
            rfl
        · exact Or.inl h2
      · exact Or.inr ⟨e2, List.mem_cons_of_mem _ he2, hn, hi⟩

/-! ### Claim C4: fetch normalization -/

theorem flatMap_snd_tags (lk : List (String × TagGroup)) :
    (lk.map Prod.snd).flatMap TagGroup.tags = flatTags lk := by
  induction lk with
  | nil => rfl
  | cons p rest ih => simp [flatTags, ih]

/-- C4: on a successful fetch, flattening the returned groups reproduces
exactly the multiset of fetched tags, one per edge, each stripped of its
tagGroup key and, under eraseId, of its id key; each group's tag list is
sorted ascending by tag name and the group list is sorted ascending by
group name. -/
theorem claim_C4_fetch_normalization (erase : Bool) (r : HttpResponse)
    (gs : List TagGroup) (h : _fetch_tag_groups erase r = Except.ok gs) :
    ∃ data, _exec_graphql r = Except.ok data ∧
      List.Perm (gs.flatMap TagGroup.tags) ((getEdges data).map (processTag erase)) ∧
      (∀ g ∈ gs, List.Sorted tagNameLe g.tags) ∧
      List.Sorted groupNameLe gs := by
  rw [_fetch_tag_groups] at h
  cases hx : _exec_graphql r with
  | error e => rw [hx] at h; cases h
  | ok data =>
    rw [hx] at h
    have h2 : (match buildLookup erase (getEdges data) [] with
        | Except.error e => (Except.error e : Except Unit (List TagGroup))
        | Except.ok lk => Except.ok (sortGroups (lk.map Prod.snd))) = Except.ok gs := h
    cases hb : buildLookup erase (getEdges data) [] with
    | error e => rw [hb] at h2; cases h2
    | ok lk =>
      rw [hb] at h2
      have hgs : sortGroups (lk.map Prod.snd) = gs := by cases h2; rfl
      have hperm : List.Perm gs (lk.map Prod.snd) := by
        rw [← hgs]
        exact List.perm_insertionSort groupNameLe _
      refine ⟨data, rfl, ?_, ?_, ?_⟩
      · refine List.Perm.trans (hperm.flatMap_right TagGroup.tags) ?_
        rw [flatMap_snd_tags]
        have := buildLookup_perm hb
        simpa [flatTags] using this
      · intro g hg
        have hg2 : g ∈ lk.map Prod.snd := (hperm.mem_iff).mp hg
        obtain ⟨p, hp, hpe⟩ := List.mem_map.mp hg2
        rw [← hpe]
        exact buildLookup_tags_sorted hb (by simp) p hp
      · rw [← hgs]
        exact List.sorted_insertionSort groupNameLe _

/-- A real group node shared by the fetch witness edges. -/
def c4g : GroupNode :=
  { id := DictVal.val "g1", name := "G", mode := DictVal.val "M",
    shortName := DictVal.null, description := DictVal.null,
    restrictToFactSheetTypes := DictVal.val [] }

/-- Edge with tag b of group G. -/
def c4e1 : TagNode :=
  { id := DictVal.val "t1", name := "b", description := DictVal.null,
    color := DictVal.val "red", status := DictVal.val "A", tagGroup := some c4g }

/-- Edge with tag a of group G, fetched after b to exercise sorting. -/
def c4e2 : TagNode :=
  { id := DictVal.val "t2", name := "a", description := DictVal.null,
    color := DictVal.val "blue", status := DictVal.val "A", tagGroup := some c4g }

/-- Edge with tag z carrying a null group. -/
def c4e3 : TagNode :=
  { id := DictVal.val "t3", name := "z", description := DictVal.null,
    color := DictVal.val "green", status := DictVal.val "A", tagGroup := none }

/-- A healthy response with three tag edges. -/
def c4resp : HttpResponse :=
  { status := 200,
    body := { errors := DictVal.null,
              data := DictVal.val [("listTags", { edges := some [c4e1, c4e2, c4e3] })] } }

/-- The groups the witness fetch returns. -/
def c4result : List TagGroup :=
  [{ id := DictVal.val "g1", name := "G", mode := DictVal.val "M",
     shortName := DictVal.null, description := DictVal.null,
     restrictToFactSheetTypes := DictVal.val [],
     tags := [processTag false c4e2, processTag false c4e1] },
   { id := DictVal.null, name := "__OTHER_TAGS__", mode := DictVal.absent,
     shortName := DictVal.absent, description := DictVal.absent,
     restrictToFactSheetTypes := DictVal.absent,
     tags := [processTag false c4e3] }]

theorem claim_C4_witness :
    _fetch_tag_groups false c4resp = Except.ok c4result ∧
    (∃ data, _exec_graphql c4resp = Except.ok data ∧
      List.Perm (c4result.flatMap TagGroup.tags)
        ((getEdges data).map (processTag false)) ∧
      (∀ g ∈ c4result, List.Sorted tagNameLe g.tags) ∧
      List.Sorted groupNameLe c4result) := by
  have h : _fetch_tag_groups false c4resp = Except.ok c4result := by rfl
  exact ⟨h, claim_C4_fetch_normalization false c4resp c4result h⟩

/-! ### Claim C6: sentinel isolation and id handling -/

/-- A fetched group whose name collides with the sentinel string. -/
def c6gX : GroupNode :=
  { id := DictVal.val "gX", name := "__OTHER_TAGS__", mode := DictVal.val "M",
    shortName := DictVal.null, description := DictVal.null,
    restrictToFactSheetTypes := DictVal.val [] }

/-- Edge with a tag carrying a null group reference. -/
def c6e1 : TagNode :=
  { id := DictVal.val "t1", name := "loose", description := DictVal.null,
    color := DictVal.val "red", status := DictVal.val "A", tagGroup := none }

/-- Edge with a tag owned by the colliding real group. -/
def c6e2 : TagNode :=
  { id := DictVal.val "t2", name := "fake", description := DictVal.null,
    color := DictVal.val "blue", status := DictVal.val "A", tagGroup := some c6gX }

/-- A response mixing a null-group tag with the colliding group's tag. -/
def c6resp : HttpResponse :=
  { status := 200,
    body := { errors := DictVal.null,
              data := DictVal.val [("listTags", { edges := some [c6e1, c6e2] })] } }

/-- The single group that collision fetch returns: named like the
sentinel, holding the null-group tag, but with the real group's id. -/
def c6badGroup : TagGroup :=
  { id := DictVal.val "gX", name := "__OTHER_TAGS__", mode := DictVal.val "M",
    shortName := DictVal.null, description := DictVal.null,
    restrictToFactSheetTypes := DictVal.val [],
    tags := [processTag false c6e2, processTag false c6e1] }

theorem claim_C6_counterexample :
    _fetch_tag_groups false c6resp = Except.ok [c6badGroup] ∧
    c6e1 ∈ getEdges [("listTags", { edges := some [c6e1, c6e2] })] ∧
    c6e1.tagGroup = none ∧ processTag false c6e1 ∈ c6badGroup.tags ∧
    c6badGroup.name = OTHER_TAGS.name ∧
    c6badGroup.id ≠ DictVal.absent ∧ c6badGroup.id ≠ DictVal.null := by
  refine ⟨by rfl, by decide, rfl, by decide, rfl, by decide, by decide⟩

/-- C6 (amended): provided no fetched tag's real group is literally named
like the sentinel, all tags with a null group reference appear under
exactly one group named like the sentinel whose id is absent or null
whatever eraseId is; eraseId true strips the id from every returned group
and tag, and eraseId false keeps every tag as fetched and gives every
group the id of one of its fetched group nodes. -/
theorem claim_C6_sentinel_isolation_and_ids (erase : Bool) (r : HttpResponse)
    (data : List (String × TagsConn)) (gs : List TagGroup)
    (hdata : _exec_graphql r = Except.ok data)
    (h : _fetch_tag_groups erase r = Except.ok gs)
    (hnc : ∀ e ∈ getEdges data, ∀ gn, e.tagGroup = some gn →
      gn.name ≠ OTHER_TAGS.name) :
    ((∃ e ∈ getEdges data, e.tagGroup = none) →
      ∃ g ∈ gs, g.name = OTHER_TAGS.name ∧
        (g.id = DictVal.absent ∨ g.id = DictVal.null) ∧
        (∀ e ∈ getEdges data, e.tagGroup = none → processTag erase e ∈ g.tags) ∧
        ∀ g2 ∈ gs, g2.name = OTHER_TAGS.name → g2 = g) ∧
    (erase = true →
      ∀ g ∈ gs, g.id = DictVal.absent ∧ ∀ t ∈ g.tags, t.id = DictVal.absent) ∧
    (erase = false →
      ∀ g ∈ gs,
        (∃ e ∈ getEdges data, (edgeGroup e).name = g.name ∧ g.id = (edgeGroup e).id) ∧
        ∀ t ∈ g.tags, ∃ e ∈ getEdges data, t = processTag false e) := by
  rw [_fetch_tag_groups, hdata] at h
  have h2 : (match buildLookup erase (getEdges data) [] with
      | Except.error e => (Except.error e : Except Unit (List TagGroup))
      | Except.ok lk => Except.ok (sortGroups (lk.map Prod.snd))) = Except.ok gs := h
  cases hb : buildLookup erase (getEdges data) [] with
  | error e => rw [hb] at h2; cases h2
  | ok lk =>
    rw [hb] at h2
    have hgs : sortGroups (lk.map Prod.snd) = gs := by cases h2; rfl
    have hperm : List.Perm gs (lk.map Prod.snd) := by
      rw [← hgs]
      exact List.perm_insertionSort groupNameLe _
    have hnames : ∀ p ∈ lk, p.2.name = p.1 := buildLookup_names hb (by simp)
    have hnodup : (lk.map Prod.fst).Nodup := buildLookup_keys_nodup hb (by simp)
    refine ⟨?_, ?_, ?_⟩
    · rintro ⟨e0, he0, hnull0⟩
      have hpt := buildLookup_null_under_sentinel hb e0 he0 hnull0
      cases hget : dictGet OTHER_TAGS.name lk with
      | none => rw [dictGetTags, hget] at hpt; simp at hpt
      | some g0 =>
        have hmem : (OTHER_TAGS.name, g0) ∈ lk := dictGet_mem hget
        have hg0gs : g0 ∈ gs := hperm.mem_iff.mpr (List.mem_map.mpr ⟨_, hmem, rfl⟩)
        have hg0name : g0.name = OTHER_TAGS.name := hnames _ hmem
        refine ⟨g0, hg0gs, hg0name, ?_, ?_, ?_⟩
        · exact buildLookup_sentinel_id hb hnc (by simp) _ hmem rfl
        · intro e he hnull
          have := buildLookup_null_under_sentinel hb e he hnull
          rw [dictGetTags, hget] at this
          exact this
        · intro g2 hg2 hg2name
          obtain ⟨p2, hp2, hp2e⟩ := List.mem_map.mp (hperm.mem_iff.mp hg2)
          have hp2key : p2.1 = OTHER_TAGS.name := by
            rw [← hnames p2 hp2, hp2e, hg2name]
          have hpp := nodup_keys_inj hnodup hp2 hmem hp2key
          rw [← hp2e, hpp]
    · intro herase
      subst herase
      intro g hg
      obtain ⟨p, hp, hpe⟩ := List.mem_map.mp (hperm.mem_iff.mp hg)
      rw [← hpe]
      exact buildLookup_erased_ids hb (by simp) p hp
    · intro herase
      subst herase
      intro g hg
      obtain ⟨p, hp, hpe⟩ := List.mem_map.mp (hperm.mem_iff.mp hg)
      constructor
      · rcases buildLookup_group_ids_from hb p hp with h1 | ⟨e2, he2, hn, hi⟩
        · simp at h1
        · refine ⟨e2, he2, ?_, ?_⟩
          · rw [hn, ← hnames p hp, hpe]
          · rw [← hpe]
            exact hi
      · intro t ht
        have htf : t ∈ flatTags lk := by
          rw [flatTags]
          exact List.mem_flatMap.mpr ⟨p, hp, by rw [hpe]; exact ht⟩
        have hpm := buildLookup_perm hb
        have : t ∈ (getEdges data).map (processTag false) := by
          have := hpm.mem_iff.mp htf
          simpa [flatTags] using this
        obtain ⟨e, he, hte⟩ := List.mem_map.mp this
        exact ⟨e, he, hte.symm⟩

theorem claim_C6_witness :
    _exec_graphql c4resp =
      Except.ok [("listTags", { edges := some [c4e1, c4e2, c4e3] })] ∧
    _fetch_tag_groups false c4resp = Except.ok c4result ∧
    (∀ e ∈ getEdges [("listTags", { edges := some [c4e1, c4e2, c4e3] })],
      ∀ gn, e.tagGroup = some gn → gn.name ≠ OTHER_TAGS.name) ∧
    ((∃ e ∈ getEdges [("listTags", { edges := some [c4e1, c4e2, c4e3] })],
        e.tagGroup = none) →
      ∃ g ∈ c4result, g.name = OTHER_TAGS.name ∧
        (g.id = DictVal.absent ∨ g.id = DictVal.null) ∧
        (∀ e ∈ getEdges [("listTags", { edges := some [c4e1, c4e2, c4e3] })],
          e.tagGroup = none → processTag false e ∈ g.tags) ∧
        ∀ g2 ∈ c4result, g2.name = OTHER_TAGS.name → g2 = g) := by
  have hdata : _exec_graphql c4resp =
      Except.ok [("listTags", { edges := some [c4e1, c4e2, c4e3] })] := rfl
  have h : _fetch_tag_groups false c4resp = Except.ok c4result := by rfl
  have hnc : ∀ e ∈ getEdges [("listTags", { edges := some [c4e1, c4e2, c4e3] })],
      ∀ gn, e.tagGroup = some gn → gn.name ≠ OTHER_TAGS.name := by decide
  exact ⟨hdata, h, hnc,
    (claim_C6_sentinel_isolation_and_ids false c4resp _ c4result hdata h hnc).1⟩
